import Mathlib

/-!
Verification of the FinTrack AI synchronization subsystem.

The development shallowly embeds the data model (src/types.ts), the merge
engine (mergeFinanceData in src/pages/ProfilePage.tsx), the compact V2
codec (toV2Format in src/pages/ProfilePage.tsx and fromV2Format in
src/pages/LoginPage.tsx), the multi-part chunker and reassembler
(handleGenerateQrCode in src/pages/ProfilePage.tsx and onScanSuccess in
src/pages/LoginPage.tsx), and the receive path (processPayload in
src/pages/LoginPage.tsx).

Conventions of the embedding:
- JavaScript numbers are modelled as integers (all claim scenarios use
  integral quantities and values); dates and timestamps are kept as the
  strings the code stores, and the `new Date(x).getTime()` valuation used
  by the sort comparators is an explicit function parameter `getTime`.
- A field that a runtime object may lack (because some code paths build
  the object without it) is modelled as an `Option`; `none` is absence,
  and it also stands for `null`/`undefined` values.
- JavaScript `Map` objects are modelled as insertion-ordered association
  lists with the exact `has`/`get`/`set`/`values` semantics.
-/

/-- User identity record (types.ts `User`). -/
structure User where
  id : String
  name : String
  avatar : String
  deriving DecidableEq

/-- Display settings (types.ts `Settings`); the three-way currency union is
modelled as a plain string. -/
structure Settings where
  displayCurrency : String
  deriving DecidableEq

/-- Global AI task status (types.ts `FinanceData.aiProcessingStatus`). -/
structure AIStatus where
  isProcessing : Bool
  message : String
  deriving DecidableEq

/-- A transaction record (types.ts `Transaction`). The fields are the ones of
the specification record (id, date, description, amount, category, optional
accountName); the transient bookkeeping field `originalAmount` of some
revisions is not part of the specified record and no claim touches it. -/
structure Transaction where
  id : String
  date : String
  description : String
  amount : Int
  category : String
  accountName : Option String
  deriving DecidableEq

/-- A holding inside an account (types.ts `Holding`). `price` and `apiId` are
`Option` because the decoded wire form of a holding does not carry them. -/
structure Holding where
  id : String
  name : String
  ticker : Option String
  quantity : Int
  price : Option Int
  value : Int
  apiId : Option String
  deriving DecidableEq

/-- An account (types.ts `Account`). -/
structure Account where
  id : String
  name : String
  category : String
  institution : Option String
  balance : Int
  holdings : Option (List Holding)
  deriving DecidableEq

/-- One conversation entry (types.ts `Conversation`). -/
structure Conversation where
  id : String
  userText : String
  aiText : String
  timestamp : String
  deriving DecidableEq

/-- The complete financial snapshot (types.ts `FinanceData`). `settings`,
`transactionCategories` and `aiProcessingStatus` are `Option` because several
code paths (the merge engine, the V2 decoder) build snapshot objects without
these properties; the transient `pendingFileForAI` field is omitted. -/
structure FinanceData where
  settings : Option Settings
  transactions : List Transaction
  accounts : List Account
  conversationHistory : List Conversation
  transactionCategories : Option (List String)
  lastUpdated : String
  aiProcessingStatus : Option AIStatus
  deriving DecidableEq

/-- The payload exchanged between devices (types.ts `SyncPayload` in the
revision cited by the codec: user identity, finance data, credential). -/
structure SyncPayload where
  user : User
  financeData : FinanceData
  apiKey : Option String
  deriving DecidableEq

/-! ## JavaScript Map model

`mergeFinanceData` drives everything through `new Map(arr.map(item =>
[item.id, item]))` plus `has`/`get`/`set`/`values`. A JS `Map` preserves
insertion order; `set` on an existing key overwrites the value in place,
`set` on a fresh key appends. -/

/-- Insertion-ordered association list standing for a JS `Map` keyed by
strings. -/
abbrev JsMap (α : Type) := List (String × α)

/-- Models `Map.prototype.has`. -/
def jsHas {α : Type} (m : JsMap α) (k : String) : Bool :=
  m.any (fun p => p.1 == k)

/-- Models `Map.prototype.get` (returning `undefined` as `none`). -/
def jsGet {α : Type} (m : JsMap α) (k : String) : Option α :=
  (m.find? (fun p => p.1 == k)).map (fun p => p.2)

/-- Models `Map.prototype.set`: overwrite in place when the key is present,
append otherwise. -/
def jsSet {α : Type} (m : JsMap α) (k : String) (v : α) : JsMap α :=
  if jsHas m k then m.map (fun p => if p.1 == k then (k, v) else p)
  else m ++ [(k, v)]

/-- Models `Array.from(map.values())`. -/
def jsValues {α : Type} (m : JsMap α) : List α :=
  m.map (fun p => p.2)

/-- The `createMap` helper of `mergeFinanceData`:
`new Map(arr.map(item => [item.id, item]))`; later duplicates overwrite
earlier ones, as the `Map` constructor does. -/
def createMap {α : Type} (key : α → String) (l : List α) : JsMap α :=
  l.foldl (fun m x => jsSet m (key x) x) []

/-- The repeated `if (!map.has(x.id)) map.set(x.id, x)` loop used for
transactions, conversation entries and holdings. -/
def addIfAbsent {α : Type} (key : α → String) (m : JsMap α) (l : List α) : JsMap α :=
  l.foldl (fun m x => if jsHas m (key x) then m else jsSet m (key x) x) m

/-! ## MergeEngine (mergeFinanceData, src/pages/ProfilePage.tsx lines 21 to 59) -/

/-- Stable insertion into a list kept in descending key order; together with
`sortByDesc` this models the stable `Array.prototype.sort` with comparator
`(a, b) => k(b) - k(a)`. -/
def insertByDesc {α : Type} (k : α → Int) (x : α) : List α → List α
  | [] => [x]
  | y :: ys => if k x ≤ k y then y :: insertByDesc k x ys else x :: y :: ys

/-- Stable sort by descending key, the result of
`arr.sort((a, b) => k(b) - k(a))` for the stable JS sort. -/
def sortByDesc {α : Type} (k : α → Int) (l : List α) : List α :=
  l.foldl (fun acc x => insertByDesc k x acc) []

/-- The reconciliation of one account id present on both sides
(the `else` branch of the accounts loop of `mergeFinanceData`): holdings are
unioned by holding id with the host record winning, the merged account keeps
every other host field, and `balance` is recomputed as
`holdings.reduce((sum, h) => sum + h.value, 0)`. -/
def reconcileAccount (hostAcc clientAcc : Account) : Account :=
  let holdings :=
    jsValues (addIfAbsent (fun h => h.id)
      (createMap (fun h => h.id) (hostAcc.holdings.getD []))
      (clientAcc.holdings.getD []))
  { hostAcc with
      holdings := some holdings,
      balance := holdings.foldl (fun s h => s + h.value) 0 }

/-- One pass of the accounts loop of `mergeFinanceData`: a client account
with a fresh id is inserted (`map.get` returning `undefined` is exactly the
failing `map.has` test); an id present on both sides is reconciled and
written back at the host id. -/
def mergeAccountsStep (m : JsMap Account) (ca : Account) : JsMap Account :=
  match jsGet m ca.id with
  | none => jsSet m ca.id ca
  | some hostAcc => jsSet m hostAcc.id (reconcileAccount hostAcc ca)

/-- The accounts loop of `mergeFinanceData`. -/
def mergeAccountsMap (hostAccs clientAccs : List Account) : JsMap Account :=
  clientAccs.foldl mergeAccountsStep (createMap (fun a => a.id) hostAccs)

/-- The merge `mergeFinanceData(hostData, clientData)` from src/pages/ProfilePage.tsx.
`getTime` is the `new Date(x).getTime()` valuation used by the two sort
comparators, and `now` is the `new Date().toISOString()` stamp of the merge
itself. The returned object carries exactly the four properties the source
literal lists: `transactions`, `accounts`, `conversationHistory` and
`lastUpdated`. -/
def mergeFinanceData (getTime : String → Int) (hostData clientData : FinanceData)
    (now : String) : FinanceData :=
  let tMap := addIfAbsent (fun t => t.id)
    (createMap (fun t => t.id) hostData.transactions) clientData.transactions
  let aMap := mergeAccountsMap hostData.accounts clientData.accounts
  let cMap := addIfAbsent (fun c => c.id)
    (createMap (fun c => c.id) hostData.conversationHistory)
    clientData.conversationHistory
  { settings := none,
    transactions := sortByDesc (fun t => getTime t.date) (jsValues tMap),
    accounts := jsValues aMap,
    conversationHistory := sortByDesc (fun c => getTime c.timestamp) (jsValues cMap),
    transactionCategories := none,
    lastUpdated := now,
    aiProcessingStatus := none }

/-! ## Peer-session credential handling
(setupConnectionListeners, src/pages/ProfilePage.tsx lines 202 to 228). -/

/-- JavaScript `a || b` on nullable strings: the empty string and
`null`/`undefined` are falsy. -/
def jsOrString (a b : Option String) : Option String :=
  match a with
  | some s => if s == "" then b else some s
  | none => b

/-- The host response of the bidirectional flow: on receiving the client
payload the host computes `mergeFinanceData(hostPayload, remotePayload)` and
`finalApiKey = hostPayload.apiKey || remotePayload.apiKey`, and sends both
back. -/
def hostResponse (getTime : String → Int) (hostData clientData : FinanceData)
    (hostKey clientKey : Option String) (now : String) : FinanceData × Option String :=
  (mergeFinanceData getTime hostData clientData now, jsOrString hostKey clientKey)

/-! ## Character-level string primitives

The dispatch and envelope code works on strings through `startsWith`,
`substring`, `split(":")` and `join(":")`; they are modelled on the
character list underlying the string. -/

/-- Prefix test on character lists. -/
def strHasPrefixChars : List Char → List Char → Bool
  | [], _ => true
  | _ :: _, [] => false
  | p :: ps, c :: cs => p == c && strHasPrefixChars ps cs

/-- Models `s.startsWith(pre)`. -/
def strStartsWith (s pre : String) : Bool :=
  strHasPrefixChars pre.data s.data

/-- Models `s.substring(n)`. -/
def strDrop (s : String) (n : Nat) : String :=
  String.mk (s.data.drop n)

/-- Models `s.substring(a, b)` for `a ≤ b` (clamped at the end of the string). -/
def substringJS (s : String) (a b : Nat) : String :=
  String.mk ((s.data.drop a).take (b - a))

/-- Models `s.split(":")` on characters: every separator opens a new
(possibly empty) piece, and the result is never empty. -/
def splitOnChar (c : Char) : List Char → List (List Char)
  | [] => [[]]
  | x :: xs =>
    let r := splitOnChar c xs
    if x == c then [] :: r
    else
      match r with
      | [] => [[x]]
      | y :: ys => (x :: y) :: ys

/-- Models `parts.join(":")` on character lists. -/
def joinColon : List (List Char) → List Char
  | [] => []
  | [x] => x
  | x :: y :: ys => x ++ ':' :: joinColon (y :: ys)

/-- Decimal digit character for `n < 10`. -/
def digitChar (n : Nat) : Char :=
  if n = 0 then '0' else if n = 1 then '1' else if n = 2 then '2'
  else if n = 3 then '3' else if n = 4 then '4' else if n = 5 then '5'
  else if n = 6 then '6' else if n = 7 then '7' else if n = 8 then '8' else '9'

/-- Fuel-driven digit expansion; the fuel only needs to exceed the number of
digits, and `natDigits` always supplies enough. -/
def natDigitsAux : Nat → Nat → List Char
  | 0, _ => []
  | fuel + 1, n =>
    if n < 10 then [digitChar n]
    else natDigitsAux fuel (n / 10) ++ [digitChar (n % 10)]

/-- Decimal digits of a natural number, most significant first; models the
JavaScript number-to-string coercion used by the template literal. -/
def natDigits (n : Nat) : List Char :=
  natDigitsAux (n + 1) n

/-- JavaScript string interpolation of a natural number. -/
def natToStr (n : Nat) : String :=
  String.mk (natDigits n)

/-- Models `parseInt(s, 10)` restricted to the nonnegative inputs this code feeds
it: the leading run of decimal digits is read, and no digit at all is `NaN`,
modelled as `none`. -/
def parseInt10 (s : String) : Option Nat :=
  let ds := s.data.takeWhile Char.isDigit
  if ds.isEmpty then none
  else some (ds.foldl (fun a c => a * 10 + (c.toNat - 48)) 0)

/-! ## Chunker (handleGenerateQrCode, src/pages/ProfilePage.tsx lines 535 to 545)
and multi-part envelopes. -/

/-- One multi-part frame: `FINT_M_V1:{sessionId}:{index}:{total}:{data}`
with a 1-based index. -/
structure Envelope where
  sessionId : String
  index : Nat
  total : Nat
  fragment : String
  deriving DecidableEq

/-- Models `Math.ceil(wire.length / size)`. -/
def numChunks (s : String) (size : Nat) : Nat :=
  (s.length + size - 1) / size

/-- The fragment of chunk `i` (0-based): `wire.substring(i*size, (i+1)*size)`. -/
def chunkFrag (s : String) (size i : Nat) : String :=
  substringJS s (i * size) ((i + 1) * size)

/-- The chunking loop of `handleGenerateQrCode`:
`totalChunks = Math.ceil(len / size)` envelopes whose fragment `i` is
`wire.substring(i*size, (i+1)*size)`, carrying a common session id and the
1-based index `i + 1`. -/
def splitChunks (s : String) (size : Nat) (sid : String) : List Envelope :=
  (List.range (numChunks s size)).map
    (fun i => ⟨sid, i + 1, numChunks s size, chunkFrag s size i⟩)

/-- The wire string of one envelope, built by the template literal
`FINT_M_V1:${sessionId}:${index}:${total}:${data}`. -/
def formatEnvelope (e : Envelope) : String :=
  "FINT_M_V1:" ++ e.sessionId ++ ":" ++ natToStr e.index ++ ":" ++ natToStr e.total ++ ":" ++ e.fragment

/-- The multi-part branch of `onScanSuccess`: strings tagged `FINT_M_V1:` are
split on every colon, fewer than five parts are ignored, the fragment is the
join of everything after the fourth colon, and index and total are read with
`parseInt`. An index or total that parses to `NaN` yields an envelope
unusable for completion; it is modelled as a parse failure. -/
def parseEnvelope (raw : String) : Option Envelope :=
  if strStartsWith raw "FINT_M_V1:" then
    let parts := splitOnChar ':' raw.data
    if parts.length < 5 then none
    else
      match parts with
      | _ :: sid :: idxStr :: totStr :: dataParts =>
        match parseInt10 (String.mk idxStr), parseInt10 (String.mk totStr) with
        | some i, some t => some ⟨String.mk sid, i, t, String.mk (joinColon dataParts)⟩
        | _, _ => none
      | _ => none
  else none

/-! ## Reassembler (onScanSuccess, src/pages/LoginPage.tsx lines 106 to 151) -/

/-- The `ScanProgress` state of `LoginPage`: the session being tracked, the
total announced when the collection started, the distinct-index count shown
to the user, and the collected fragments keyed by index. -/
structure ScanProgress where
  sessionId : String
  total : Nat
  collected : Nat
  chunks : List (Nat × String)
  deriving DecidableEq

/-- Models `chunks[index]` on the fragment object. -/
def chunkLookup (chunks : List (Nat × String)) (i : Nat) : Option String :=
  (chunks.find? (fun p => p.1 == i)).map (fun p => p.2)

/-- Truthiness test `!currentProgress.chunks[index]`: an absent entry and the
empty string are falsy. -/
def chunkFalsy (chunks : List (Nat × String)) (i : Nat) : Bool :=
  match chunkLookup chunks i with
  | none => true
  | some s => s == ""

/-- Models the spread `{ ...chunks, [index]: data }`: overwrite in place or append. -/
def chunkInsert (chunks : List (Nat × String)) (i : Nat) (d : String) : List (Nat × String) :=
  if chunks.any (fun p => p.1 == i) then
    chunks.map (fun p => if p.1 == i then (i, d) else p)
  else chunks ++ [(i, d)]

/-- The reassembly loop `for (let i = 1; i <= total; i++) out += chunks[i]`;
a missing entry would contribute the text `undefined`, as JavaScript
concatenation of `undefined` does. -/
def assembleChunks (chunks : List (Nat × String)) (total : Nat) : String :=
  String.join ((List.range total).map (fun i => (chunkLookup chunks (i + 1)).getD "undefined"))

/-- One step of the multi-part branch of `onScanSuccess`, as a pure state
transformer: an envelope of a different session replaces the tracking state;
a falsy (absent) index stores the fragment; when the number of collected keys
equals the total announced by the current envelope, the fragments are joined
in ascending index order, and the progress state is reset. The second
component is the completed wire string, when completion fired. -/
def ingestChunk (st : Option ScanProgress) (e : Envelope) : Option ScanProgress × Option String :=
  let cur : ScanProgress :=
    match st with
    | some p => if p.sessionId == e.sessionId then p else ⟨e.sessionId, e.total, 0, []⟩
    | none => ⟨e.sessionId, e.total, 0, []⟩
  if chunkFalsy cur.chunks e.index then
    let newChunks := chunkInsert cur.chunks e.index e.fragment
    let collected := newChunks.length
    if collected == e.total then (none, some (assembleChunks newChunks e.total))
    else (some { cur with collected := collected, chunks := newChunks }, none)
  else (some cur, none)

/-- Feeding a stream of envelopes into the reassembler, returning the first
completed wire string. -/
def runReassemblyFrom (st : Option ScanProgress) : List Envelope → Option String
  | [] => none
  | e :: es =>
    let r := ingestChunk st e
    match r.2 with
    | some out => some out
    | none => runReassemblyFrom r.1 es

/-- Reassembly of a full arrival sequence from the idle state. -/
def runReassembly (es : List Envelope) : Option String :=
  runReassemblyFrom none es

/-- The number of distinct indices in an arrival sequence. -/
def distinctIndexCount (es : List Envelope) : Nat :=
  (es.map (fun e => e.index)).dedup.length

/-! ## Compact V2 codec (toV2Format, src/pages/ProfilePage.tsx lines 438 to
478; fromV2Format, src/pages/LoginPage.tsx lines 12 to 58)

The positional arrays of the wire form are modelled as structures whose field
order is the array position; `null` sentinels are `none`. -/

/-- Models `x || null` and `x || undefined` on an optional string: the empty string
collapses to the null sentinel. -/
def jsFalsyToNone (a : Option String) : Option String :=
  match a with
  | some s => if s == "" then none else some s
  | none => none

/-- Compact transaction `[id, date, description, amount, category,
accountName || null]`. -/
structure CompactTx where
  id : String
  date : String
  description : String
  amount : Int
  category : String
  accountName : Option String
  deriving DecidableEq

/-- Compact holding `[id, name, ticker || null, quantity, value]`; the
holding price and external id are not carried. -/
structure CompactHolding where
  id : String
  name : String
  ticker : Option String
  quantity : Int
  value : Int
  deriving DecidableEq

/-- Compact account `[id, name, category, institution || null, balance,
holdings]`. -/
structure CompactAccount where
  id : String
  name : String
  category : String
  institution : Option String
  balance : Int
  holdings : List CompactHolding
  deriving DecidableEq

/-- The compact finance data object `{ t, a, tc, lu }`. -/
structure CompactData where
  t : List CompactTx
  a : List CompactAccount
  tc : Option (List String)
  lu : String
  deriving DecidableEq

/-- The compact payload `{ u, d, k }`. -/
structure CompactV2 where
  u : User
  d : CompactData
  k : Option String
  deriving DecidableEq

/-- One transaction flattened into `[id, date, description, amount,
category, accountName || null]`. -/
def encTx (t : Transaction) : CompactTx :=
  ⟨t.id, t.date, t.description, t.amount, t.category, jsFalsyToNone t.accountName⟩

/-- One compact transaction expanded back; the null sentinel becomes an
absent account name (`t[5] || undefined`). -/
def decTx (t : CompactTx) : Transaction :=
  ⟨t.id, t.date, t.description, t.amount, t.category, jsFalsyToNone t.accountName⟩

/-- One holding flattened into `[id, name, ticker || null, quantity,
value]`; the price and the external id are not carried. -/
def encHold (h : Holding) : CompactHolding :=
  ⟨h.id, h.name, jsFalsyToNone h.ticker, h.quantity, h.value⟩

/-- One compact holding expanded back; price and external id are not in the
wire form, so the decoded holding lacks them. -/
def decHold (h : CompactHolding) : Holding :=
  ⟨h.id, h.name, jsFalsyToNone h.ticker, h.quantity, none, h.value, none⟩

/-- One account flattened into `[id, name, category, institution || null,
balance, holdings]` with `a.holdings?.map(...) || []`. -/
def encAccount (a : Account) : CompactAccount :=
  ⟨a.id, a.name, a.category, jsFalsyToNone a.institution, a.balance,
    (a.holdings.getD []).map encHold⟩

/-- One compact account expanded back;
`holdings.length > 0 ? holdings : undefined`. -/
def decAccount (a : CompactAccount) : Account :=
  let holdings := a.holdings.map decHold
  ⟨a.id, a.name, a.category, jsFalsyToNone a.institution, a.balance,
    if holdings.isEmpty then none else some holdings⟩

/-- The encoder `toV2Format`: the standard payload flattened into the compact positional
form. Holdings carry id, name, ticker, quantity and value only. -/
def toV2Format (p : SyncPayload) : CompactV2 :=
  { u := p.user,
    d :=
      { t := p.financeData.transactions.map encTx,
        a := p.financeData.accounts.map encAccount,
        tc := p.financeData.transactionCategories,
        lu := p.financeData.lastUpdated },
    k := p.apiKey }

/-- The decoder `fromV2Format`: the compact form expanded back. Decoded holdings carry no
price and no external id, an empty holdings array becomes an absent field,
the conversation history is set empty, and the credential is `k || null`.
On a well-shaped compact value the `try`/`catch` of the source never fires,
so the result is always `some`. -/
def fromV2Format (c : CompactV2) : Option SyncPayload :=
  some
    { user := c.u,
      financeData :=
        { settings := none,
          transactions := c.d.t.map decTx,
          accounts := c.d.a.map decAccount,
          conversationHistory := [],
          transactionCategories := c.d.tc,
          lastUpdated := c.d.lu,
          aiProcessingStatus := none },
      apiKey := jsFalsyToNone c.k }

/-- The encode pipeline `FINT_V2: + base64(deflate(JSON.stringify(compact)))`.
The byte and text conversion (`JSON.stringify`, `pako.deflate`, `btoa`) is an
external reversible text codec (spec section 6) and enters as the abstract
function `enc`. -/
def encodeV2Wire (enc : CompactV2 → String) (p : SyncPayload) : String :=
  "FINT_V2:" ++ enc (toV2Format p)

/-- The single-frame decode dispatch of `onScanSuccess` restricted to the V2
format: a string tagged `FINT_M_V1:` belongs to the multi-part path, a string
tagged `FINT_V2:` has its body put through the inverse text codec `dec`
(`atob`, `pako.inflate`, `JSON.parse`) and then `fromV2Format`. The legacy
`FINT_C_V1` and bare-JSON branches never receive a V2-tagged string and are
modelled in `decodeSingleFrame`. -/
def decodeV2Wire (dec : String → Option CompactV2) (raw : String) : Option SyncPayload :=
  if strStartsWith raw "FINT_M_V1:" then none
  else if strStartsWith raw "FINT_V2:" then (dec (strDrop raw 8)).bind fromV2Format
  else none

/-- Drops the two holding fields the V2 wire format does not carry. -/
def dropWireOnly (h : Holding) : Holding :=
  { h with price := none, apiId := none }

/-- What one account becomes after the V2 round trip: all fields verbatim,
except that holdings lose price and external id and an empty holdings list
becomes an absent field. -/
def expectedAccount (a : Account) : Account :=
  { a with
      holdings :=
        match a.holdings with
        | none => none
        | some hs => if hs.isEmpty then none else some (hs.map dropWireOnly) }

/-- The payload the V2 round trip actually reproduces, written against the
decode path: every field is kept verbatim except that decoded holdings lose
price and external id, an empty holdings list becomes absent, the
conversation history is empty, and the settings and AI status properties are
absent. -/
def expectedV2Decoded (p : SyncPayload) : SyncPayload :=
  { user := p.user,
    financeData :=
      { settings := none,
        transactions := p.financeData.transactions,
        accounts := p.financeData.accounts.map expectedAccount,
        conversationHistory := [],
        transactionCategories := p.financeData.transactionCategories,
        lastUpdated := p.financeData.lastUpdated,
        aiProcessingStatus := none },
    apiKey := p.apiKey }

/-! ## Receive path (processPayload and the single-frame branch of
onScanSuccess, src/pages/LoginPage.tsx lines 91 to 104 and 154 to 180) -/

/-- The untyped payload object handed to `processPayload`: the presence of
the `user` and `financeData` properties, whether the `apiKey` property exists
at all (the `in` check), and the credential value. -/
structure JsPayload where
  user : Option User
  financeData : Option FinanceData
  hasApiKeyField : Bool
  apiKey : Option String
  deriving DecidableEq

/-- The device-local state the receive path may mutate: the logged-in user,
the persisted finance snapshot, and the stored credential. -/
structure LocalState where
  currentUser : Option User
  finance : FinanceData
  storedApiKey : Option String
  deriving DecidableEq

/-- The validation gate of `processPayload`:
`payload && payload.user && payload.financeData && (apiKey in payload)`. -/
def validPayload (p : JsPayload) : Bool :=
  p.user.isSome && p.financeData.isSome && p.hasApiKeyField

/-- The gatekeeper `processPayload`: a payload passing the validation gate logs in, stores
the snapshot and saves a truthy credential; anything else only reports a scan
error (the boolean) and leaves the local state untouched. -/
def processPayload (p : Option JsPayload) (st : LocalState) : LocalState × Bool :=
  match p with
  | some q =>
    match q.user, q.financeData, q.hasApiKeyField with
    | some u, some fd, true =>
      ({ currentUser := some u,
         finance := fd,
         storedApiKey :=
           match q.apiKey with
           | some s => if s == "" then st.storedApiKey else some s
           | none => st.storedApiKey }, false)
    | _, _, _ => (st, true)
  | none => (st, true)

/-- The single-frame decode dispatch of `onScanSuccess` over untyped decode
results: `v2` is the `FINT_V2` body parser, `v1` the legacy `FINT_C_V1` body
parser, `jsonParse` the bare `JSON.parse` fallback; each models its
`try`/`catch` by returning `none` on failure. -/
def decodeSingleFrame (v2 v1 jsonParse : String → Option JsPayload) (raw : String) :
    Option JsPayload :=
  if strStartsWith raw "FINT_V2:" then v2 (strDrop raw 8)
  else if strStartsWith raw "FINT_C_V1:" then v1 (strDrop raw 10)
  else jsonParse raw

/-- The complete single-frame receive path: decode, then `processPayload`. -/
def receiveSingleFrame (v2 v1 jsonParse : String → Option JsPayload) (raw : String)
    (st : LocalState) : LocalState × Bool :=
  processPayload (decodeSingleFrame v2 v1 jsonParse raw) st

/-! ## Concrete data used by counterexamples and witnesses -/

/-- An empty snapshot carrying only a stamp. -/
def emptySnapshot (stamp : String) : FinanceData :=
  { settings := none, transactions := [], accounts := [], conversationHistory := [],
    transactionCategories := none, lastUpdated := stamp, aiProcessingStatus := none }

/-- Local side of the holdings-merge scenario: account `a1` holding
one AAPL share worth 150. -/
def c1Host : FinanceData :=
  { emptySnapshot "2024-01-01" with
      accounts := [⟨"a1", "Brokerage", "Equities", none, 150,
        some [⟨"h1", "AAPL", none, 1, none, 150, none⟩]⟩] }

/-- Remote side of the holdings-merge scenario: the same account and holding
ids with two AAPL shares worth 300. -/
def c1Client : FinanceData :=
  { emptySnapshot "2024-01-02" with
      accounts := [⟨"a1", "Brokerage", "Equities", none, 300,
        some [⟨"h1", "AAPL", none, 2, none, 300, none⟩]⟩] }

/-- Both sides of the balance scenario: the same plain bank account, no
holdings, balance 100. -/
def c6Host : FinanceData :=
  { emptySnapshot "2024-01-01" with
      accounts := [⟨"a1", "Checking", "Bank Accounts", none, 100, none⟩] }

/-- Remote side of the balance scenario. -/
def c6Client : FinanceData :=
  { emptySnapshot "2024-01-02" with
      accounts := [⟨"a1", "Checking", "Bank Accounts", none, 100, none⟩] }

/-- A payload whose single holding carries a price, for exercising the V2
round trip. -/
def c2Payload : SyncPayload :=
  ⟨⟨"u1", "Alice", "ava"⟩,
   { emptySnapshot "2024-01-01" with
       accounts := [⟨"a1", "Brokerage", "Equities", none, 150,
         some [⟨"h1", "AAPL", some "AAPL", 1, some 150, 150, none⟩]⟩],
       transactionCategories := some ["Income", "Food"] },
   some "key1"⟩

/-- A concrete stand-in for the external compression codec, inverse to
`c2Dec` at the one compact value the scenario encodes. -/
def c2Enc : CompactV2 → String := fun _ => "X"

/-- The matching concrete decoder. -/
def c2Dec : String → Option CompactV2 := fun _ => some (toV2Format c2Payload)

/-- Transaction `t1` of the merge-union scenario. -/
def c5t1 : Transaction := ⟨"t1", "2024-01-03", "salary", 100, "Income", none⟩

/-- Transaction `t2`, present on both sides. -/
def c5t2 : Transaction := ⟨"t2", "2024-01-02", "groceries", -50, "Food", none⟩

/-- Transaction `t3`, present only remotely. -/
def c5t3 : Transaction := ⟨"t3", "2024-01-01", "taxi", -10, "Transport", none⟩

/-- Local snapshot of the union scenario: `[t1, t2]`. -/
def c5Host : FinanceData := { emptySnapshot "a" with transactions := [c5t1, c5t2] }

/-- Remote snapshot of the union scenario: `[t2, t3]`. -/
def c5Client : FinanceData := { emptySnapshot "b" with transactions := [c5t2, c5t3] }

/-- A concrete date valuation for the scenario dates. -/
def c5GetTime (d : String) : Int :=
  if d == "2024-01-03" then 3 else if d == "2024-01-02" then 2 else 1

/-- The out-of-order, duplicated arrival sequence of the reassembly
scenario: index 2 `BBB`, then index 1 `AAA`, then a repeat of index 1. -/
def c3Envelopes : List Envelope :=
  [⟨"s1", 2, 2, "BBB"⟩, ⟨"s1", 1, 2, "AAA"⟩, ⟨"s1", 1, 2, "AAA"⟩]

/-! ## General lemmas -/

/-- A map whose function fixes every element of the list is the identity on
that list. -/
theorem listMapFix {α : Type} (f : α → α) :
    ∀ l : List α, (∀ x ∈ l, f x = x) → l.map f = l := by
  intro l h
  induction l with
  | nil => rfl
  | cons x xs ih =>
    simp only [List.map_cons]
    rw [h x (by simp), ih (fun y hy => h y (by simp [hy]))]

/-- A map with pointwise-equal functions. -/
theorem listMapPointwise {α β : Type} (f g : α → β) :
    ∀ l : List α, (∀ x ∈ l, f x = g x) → l.map f = l.map g := by
  intro l h
  induction l with
  | nil => rfl
  | cons x xs ih =>
    simp only [List.map_cons]
    rw [h x (by simp), ih (fun y hy => h y (by simp [hy]))]

/-- The falsy-collapse is the identity away from the empty string. -/
theorem jsFalsyToNone_eq_self {a : Option String} (h : a ≠ some "") :
    jsFalsyToNone a = a := by
  cases a with
  | none => rfl
  | some s =>
    have hs : s ≠ "" := fun hs => h (by rw [hs])
    simp [jsFalsyToNone, hs]

/-- Applying the falsy-collapse twice is the identity away from the empty
string. -/
theorem jsFalsyToNone_idem_eq {a : Option String} (h : a ≠ some "") :
    jsFalsyToNone (jsFalsyToNone a) = a := by
  rw [jsFalsyToNone_eq_self h, jsFalsyToNone_eq_self h]

/-- The `FINT_V2:` tag never matches the multi-part tag. -/
theorem strStartsWith_v2_not_multipart (s : String) :
    strStartsWith ("FINT_V2:" ++ s) "FINT_M_V1:" = false := by
  simp only [strStartsWith, String.data_append]
  rfl

/-- A `FINT_V2:`-prefixed string starts with its own tag. -/
theorem strStartsWith_v2_self (s : String) :
    strStartsWith ("FINT_V2:" ++ s) "FINT_V2:" = true := by
  simp only [strStartsWith, String.data_append]
  rfl

/-- Dropping the eight tag characters recovers the encoded body. -/
theorem strDrop_v2 (s : String) : strDrop ("FINT_V2:" ++ s) 8 = s := by
  simp [strDrop, String.data_append]

/-! ## Claim C10 -/

/-- Claim C10: for every pair of input snapshots the merged snapshot carries
only the transactions, accounts, conversation history and stamp; the
settings, transaction categories and AI status of both inputs are absent
from the result, whatever the inputs were. -/
theorem mergeFinanceData_frame (getTime : String → Int)
    (hostData clientData : FinanceData) (now : String) :
    (mergeFinanceData getTime hostData clientData now).settings = none ∧
    (mergeFinanceData getTime hostData clientData now).transactionCategories = none ∧
    (mergeFinanceData getTime hostData clientData now).aiProcessingStatus = none ∧
    (mergeFinanceData getTime hostData clientData now).lastUpdated = now :=
  ⟨rfl, rfl, rfl, rfl⟩

/-! ## Claim C6 -/

/-- Claim C6 (code bug evaluation): merging two copies of the same plain
bank account, balance 100 and no holdings on either side, produces holdings
`[]` and balance 0 instead of keeping the defined balance of 100; the merge
recomputes the balance as the sum over an empty holdings list. -/
theorem mergeFinanceData_zeroes_holdingless_balance :
    (mergeFinanceData (fun _ => 0) c6Host c6Client "2024-01-03").accounts =
      [⟨"a1", "Checking", "Bank Accounts", none, 0, some []⟩] ∧
    (0 : Int) ≠ 100 := by
  exact ⟨by decide, by decide⟩

/-! ## Claim C1 -/

/-- Claim C1 (counterexample): merging the scenario accounts, one AAPL
holding worth 150 locally against the same holding id with quantity 2 worth
300 remotely, keeps the host holding unchanged: the merged account holds
quantity 1 at value 150 with balance 150, not the claimed summed quantity 3
at value 450 with balance 450. Holdings are unioned by id, not by
case-insensitive name, and nothing is summed. -/
theorem mergeFinanceData_holdings_counterexample :
    (mergeFinanceData (fun _ => 0) c1Host c1Client "2024-01-03").accounts =
      [⟨"a1", "Brokerage", "Equities", none, 150,
        some [⟨"h1", "AAPL", none, 1, none, 150, none⟩]⟩] ∧
    ((mergeFinanceData (fun _ => 0) c1Host c1Client "2024-01-03").accounts.any
      (fun a => a.balance == 450)) = false ∧
    (1 : Int) ≠ 3 ∧ (150 : Int) ≠ 450 := by
  exact ⟨by decide, by decide, by decide, by decide⟩

/-! ## Claim C7 -/

/-- Claim C7: an envelope whose session id differs from the tracked one
replaces the tracking state: the step behaves exactly as if no collection
existed, so every previously collected fragment is discarded and completion
depends only on the new session. -/
theorem ingestChunk_session_replacement (p : ScanProgress) (e : Envelope)
    (h : p.sessionId ≠ e.sessionId) :
    ingestChunk (some p) e = ingestChunk none e := by
  simp [ingestChunk, h]

/-- Witness for claim C7 at a concrete mid-collection state. -/
theorem ingestChunk_session_replacement_witness :
    (("s1" : String) ≠ "s2") ∧
    ingestChunk (some ⟨"s1", 3, 1, [(1, "AAA")]⟩) ⟨"s2", 1, 2, "XXX"⟩ =
      ingestChunk none ⟨"s2", 1, 2, "XXX"⟩ :=
  ⟨by decide,
   ingestChunk_session_replacement ⟨"s1", 3, 1, [(1, "AAA")]⟩ ⟨"s2", 1, 2, "XXX"⟩ (by decide)⟩

/-! ## Claim C9 -/

/-- Claim C9: in the bidirectional flow the credential sent back by the host
is the host credential whenever the host has one, and the client credential
exactly when the host has none; the hypothesis records that stored
credentials are never the empty string (the key save path trims and rejects
blank input). -/
theorem hostResponse_credential (getTime : String → Int)
    (hostData clientData : FinanceData) (hostKey clientKey : Option String)
    (now : String) (hne : ∀ s : String, hostKey = some s → s ≠ "") :
    (hostKey.isSome = true →
      (hostResponse getTime hostData clientData hostKey clientKey now).2 = hostKey) ∧
    (hostKey = none →
      (hostResponse getTime hostData clientData hostKey clientKey now).2 = clientKey) := by
  constructor
  · intro hsome
    cases hk : hostKey with
    | none => rw [hk] at hsome; simp at hsome
    | some s =>
      have hs : s ≠ "" := hne s hk
      simp [hostResponse, jsOrString, hk, hs]
  · intro hnone
    simp [hostResponse, jsOrString, hnone]

/-- Witness for claim C9 with both sides holding a credential. -/
theorem hostResponse_credential_witness :
    (∀ s : String, (some "hostkey" : Option String) = some s → s ≠ "") ∧
    (((some "hostkey" : Option String).isSome = true →
      (hostResponse (fun _ => 0) c6Host c6Client (some "hostkey") (some "clientkey")
        "t").2 = some "hostkey") ∧
    ((some "hostkey" : Option String) = none →
      (hostResponse (fun _ => 0) c6Host c6Client (some "hostkey") (some "clientkey")
        "t").2 = some "clientkey")) :=
  ⟨by intro s h; cases h; decide,
   hostResponse_credential (fun _ => 0) c6Host c6Client (some "hostkey") (some "clientkey")
     "t" (by intro s h; cases h; decide)⟩

/-! ## Claim C4 -/

/-- Claim C4: whenever the single-frame decode fails (no branch yields a
payload, or the decoded object fails the validation gate), the receive path
reports a scan error and returns the local state unchanged: no login, no
snapshot write and no credential save happens. -/
theorem receiveSingleFrame_invalid_leaves_state (v2 v1 jsonParse : String → Option JsPayload)
    (raw : String) (st : LocalState)
    (hfail : ∀ q, decodeSingleFrame v2 v1 jsonParse raw = some q → validPayload q = false) :
    receiveSingleFrame v2 v1 jsonParse raw st = (st, true) := by
  unfold receiveSingleFrame
  cases hd : decodeSingleFrame v2 v1 jsonParse raw with
  | none => rfl
  | some q =>
    have hq := hfail q hd
    rcases q with ⟨u, fd, hk, k⟩
    cases u <;> cases fd <;> cases hk <;> simp_all [processPayload, validPayload]

/-- Witness for claim C4: a frame with an unknown version prefix (every
branch parser fails on it) leaves a concrete local state untouched and
reports the error. -/
theorem receiveSingleFrame_invalid_witness :
    (∀ q, decodeSingleFrame (fun _ => none) (fun _ => none) (fun _ => none)
      "FINT_Z_V9:abc" = some q → validPayload q = false) ∧
    receiveSingleFrame (fun _ => none) (fun _ => none) (fun _ => none) "FINT_Z_V9:abc"
      ⟨none, emptySnapshot "s0", none⟩ = (⟨none, emptySnapshot "s0", none⟩, true) := by
  have hnone : decodeSingleFrame (fun _ => none) (fun _ => none) (fun _ => none)
      "FINT_Z_V9:abc" = none := by decide
  refine ⟨fun q h => ?_, ?_⟩
  · rw [hnone] at h; exact Option.noConfusion h
  · exact receiveSingleFrame_invalid_leaves_state _ _ _ _ _
      (fun q h => by rw [hnone] at h; exact Option.noConfusion h)

/-! ## Claim C2 -/

/-- Claim C2 (counterexample): the V2 round trip of a payload whose holding
carries a price decodes successfully but loses the price: the decoded
holding price is `none` while the original was 150, so the round trip does
not reproduce every holding field. -/
theorem v2RoundTrip_counterexample :
    decodeV2Wire c2Dec (encodeV2Wire c2Enc c2Payload) = some (expectedV2Decoded c2Payload) ∧
    expectedV2Decoded c2Payload ≠ c2Payload ∧
    ((expectedV2Decoded c2Payload).financeData.accounts.map
      (fun a => (a.holdings.getD []).map (fun h => h.price))) = [[none]] ∧
    (c2Payload.financeData.accounts.map
      (fun a => (a.holdings.getD []).map (fun h => h.price))) = [[some 150]] := by
  exact ⟨by decide, by decide, by decide, by decide⟩

/-- Transaction-level round trip for nonempty account names. -/
theorem v2Tx_roundtrip (t : Transaction) (h : t.accountName ≠ some "") :
    decTx (encTx t) = t := by
  cases t with
  | mk i d de am cat an =>
    show Transaction.mk i d de am cat (jsFalsyToNone (jsFalsyToNone an)) = _
    rw [jsFalsyToNone_idem_eq (show an ≠ some "" from h)]

theorem v2Holding_roundtrip (h : Holding) (ht : h.ticker ≠ some "") :
    decHold (encHold h) = dropWireOnly h := by
  cases h with
  | mk i n tk q pr v ap =>
    show Holding.mk i n (jsFalsyToNone (jsFalsyToNone tk)) q none v none = _
    rw [jsFalsyToNone_idem_eq (show tk ≠ some "" from ht)]
    rfl

theorem v2Account_roundtrip (a : Account) (hinst : a.institution ≠ some "")
    (hticks : ∀ h ∈ a.holdings.getD [], h.ticker ≠ some "") :
    decAccount (encAccount a) = expectedAccount a := by
  obtain ⟨i, n, cat, inst, bal, hold⟩ := a
  have hinst2 : inst ≠ some "" := hinst
  cases hold with
  | none =>
    simp [decAccount, encAccount, expectedAccount, jsFalsyToNone_idem_eq hinst2]
  | some hs =>
    have hticks2 : ∀ h ∈ hs, h.ticker ≠ some "" := hticks
    cases hs with
    | nil =>
      simp [decAccount, encAccount, expectedAccount, jsFalsyToNone_idem_eq hinst2]
    | cons h0 hrest =>
      have hmap : List.map decHold (List.map encHold (h0 :: hrest)) =
          List.map dropWireOnly (h0 :: hrest) := by
        rw [List.map_map]
        exact listMapPointwise _ _ _ (fun x hx => v2Holding_roundtrip x (hticks2 x hx))
      simp only [decAccount, encAccount, expectedAccount, Option.getD_some]
      rw [hmap]
      simp [jsFalsyToNone_idem_eq hinst2]

/-- Claim C2 (amended): for every payload whose optional string fields are
not the empty string, decoding the encoding through the tag dispatch and the
reversible external text codec reproduces the identity, the credential,
every transaction field, and every account and holding field except that
holdings lose their price and external id, an empty holdings list becomes an
absent field, and the decoded conversation history is empty by contract. -/
theorem v2RoundTrip_amended (enc : CompactV2 → String) (dec : String → Option CompactV2)
    (p : SyncPayload)
    (hcodec : dec (enc (toV2Format p)) = some (toV2Format p))
    (htx : ∀ t ∈ p.financeData.transactions, t.accountName ≠ some "")
    (hacc : ∀ a ∈ p.financeData.accounts,
      a.institution ≠ some "" ∧ ∀ h ∈ a.holdings.getD [], h.ticker ≠ some "")
    (hkey : p.apiKey ≠ some "") :
    decodeV2Wire dec (encodeV2Wire enc p) = some (expectedV2Decoded p) := by
  unfold encodeV2Wire decodeV2Wire
  rw [strStartsWith_v2_not_multipart, strStartsWith_v2_self, strDrop_v2, hcodec]
  show fromV2Format (toV2Format p) = some (expectedV2Decoded p)
  unfold fromV2Format toV2Format expectedV2Decoded
  simp only [Option.some.injEq, SyncPayload.mk.injEq, FinanceData.mk.injEq, List.map_map]
  refine ⟨trivial, ⟨trivial, ?_, ?_, trivial, trivial, trivial, trivial⟩,
    jsFalsyToNone_eq_self hkey⟩
  · exact listMapFix _ _ (fun t ht => v2Tx_roundtrip t (htx t ht))
  · exact listMapPointwise _ _ _ (fun a ha => v2Account_roundtrip a (hacc a ha).1 (hacc a ha).2)

/-- Witness for the amended claim C2 at the concrete scenario payload. -/
theorem v2RoundTrip_amended_witness :
    (c2Dec (c2Enc (toV2Format c2Payload)) = some (toV2Format c2Payload)) ∧
    decodeV2Wire c2Dec (encodeV2Wire c2Enc c2Payload) = some (expectedV2Decoded c2Payload) :=
  ⟨by decide,
   v2RoundTrip_amended c2Enc c2Dec c2Payload (by decide) (by decide) (by decide) (by decide)⟩

/-! ## JsMap lemmas -/

theorem jsHas_append {α : Type} (m n : JsMap α) (k : String) :
    jsHas (m ++ n) k = (jsHas m k || jsHas n k) := by
  simp [jsHas, List.any_append]

theorem jsSet_absent {α : Type} {m : JsMap α} {k : String} (v : α)
    (h : jsHas m k = false) : jsSet m k v = m ++ [(k, v)] := by
  simp [jsSet, h]

theorem createMap_aux {α : Type} (key : α → String) :
    ∀ (l : List α) (m : JsMap α), (l.map key).Nodup →
      (∀ x ∈ l, jsHas m (key x) = false) →
      l.foldl (fun m x => jsSet m (key x) x) m = m ++ l.map (fun x => (key x, x)) := by
  intro l
  induction l with
  | nil => intro m _ _; simp
  | cons x xs ih =>
    intro m hnd habs
    rw [List.map_cons] at hnd
    obtain ⟨hx, hxs⟩ := List.nodup_cons.mp hnd
    simp only [List.foldl_cons]
    rw [jsSet_absent x (habs x (by simp))]
    rw [ih (m ++ [(key x, x)]) hxs ?_]
    · simp
    · intro y hy
      have hne : ¬ (key x = key y) := fun heq => hx (heq ▸ List.mem_map_of_mem key hy)
      rw [jsHas_append, habs y (by simp [hy])]
      simp [jsHas, hne]

theorem createMap_eq {α : Type} (key : α → String) (l : List α)
    (h : (l.map key).Nodup) : createMap key l = l.map (fun x => (key x, x)) := by
  simpa [createMap] using createMap_aux key l [] h (fun x _ => rfl)

theorem addIfAbsent_eq {α : Type} (key : α → String) :
    ∀ (l : List α) (m : JsMap α), (l.map key).Nodup →
      addIfAbsent key m l =
        m ++ (l.filter (fun x => !jsHas m (key x))).map (fun x => (key x, x)) := by
  intro l
  induction l with
  | nil => intro m _; simp [addIfAbsent]
  | cons x xs ih =>
    intro m hnd
    rw [List.map_cons] at hnd
    obtain ⟨hx, hxs⟩ := List.nodup_cons.mp hnd
    simp only [addIfAbsent, List.foldl_cons]
    by_cases hmem : jsHas m (key x) = true
    · rw [if_pos hmem]
      have hrec := ih m hxs
      simp only [addIfAbsent] at hrec
      rw [hrec]
      simp [List.filter_cons, hmem]
    · have hmem2 : jsHas m (key x) = false := Bool.eq_false_iff.mpr hmem
      rw [if_neg hmem, jsSet_absent x hmem2]
      have hrec := ih (m ++ [(key x, x)]) hxs
      simp only [addIfAbsent] at hrec
      rw [hrec]
      have hcong : xs.filter (fun y => !jsHas (m ++ [(key x, x)]) (key y)) =
          xs.filter (fun y => !jsHas m (key y)) := by
        apply List.filter_congr
        intro y hy
        have hne : ¬ (key x = key y) := fun heq => hx (heq ▸ List.mem_map_of_mem key hy)
        rw [jsHas_append]
        simp [jsHas, hne]
      rw [hcong]
      simp [List.filter_cons, hmem2]

theorem jsValues_append {α : Type} (m n : JsMap α) :
    jsValues (m ++ n) = jsValues m ++ jsValues n := by
  simp [jsValues]

theorem jsValues_mapPair {α : Type} (key : α → String) (l : List α) :
    jsValues (l.map (fun x => (key x, x))) = l := by
  simp [jsValues, List.map_map, Function.comp_def]

theorem jsHas_createMap_mem {α : Type} (key : α → String) (hl : List α) (k : String)
    (h : (hl.map key).Nodup) :
    jsHas (createMap key hl) k = decide (k ∈ hl.map key) := by
  rw [createMap_eq key hl h]
  have hiff : jsHas (hl.map fun x => (key x, x)) k = true ↔ k ∈ hl.map key := by
    simp only [jsHas, List.any_eq_true, List.mem_map]
    constructor
    · rintro ⟨p, ⟨y, hy, rfl⟩, hpk⟩
      exact ⟨y, hy, by simpa using hpk⟩
    · rintro ⟨y, hy, rfl⟩
      exact ⟨(key y, y), ⟨y, hy, rfl⟩, by simp⟩
  apply Bool.eq_iff_iff.mpr
  rw [decide_eq_true_eq]
  exact hiff

/-! ## Sort lemmas -/

theorem insertByDesc_perm {α : Type} (k : α → Int) (x : α) (l : List α) :
    List.Perm (insertByDesc k x l) (x :: l) := by
  induction l with
  | nil => exact List.Perm.refl _
  | cons y ys ih =>
    simp only [insertByDesc]
    by_cases h : k x ≤ k y
    · rw [if_pos h]
      exact (ih.cons y).trans (List.Perm.swap x y ys)
    · rw [if_neg h]

theorem sortByDesc_perm_aux {α : Type} (k : α → Int) :
    ∀ (l acc : List α),
      List.Perm (l.foldl (fun acc x => insertByDesc k x acc) acc) (acc ++ l) := by
  intro l
  induction l with
  | nil => intro acc; simp
  | cons x xs ih =>
    intro acc
    simp only [List.foldl_cons]
    refine (ih (insertByDesc k x acc)).trans ?_
    refine (List.Perm.append_right xs (insertByDesc_perm k x acc)).trans ?_
    exact List.perm_middle.symm

theorem sortByDesc_perm {α : Type} (k : α → Int) (l : List α) :
    List.Perm (sortByDesc k l) l := by
  simpa [sortByDesc] using sortByDesc_perm_aux k l []

theorem insertByDesc_pairwise {α : Type} (k : α → Int) (x : α) (l : List α)
    (h : l.Pairwise (fun a b => k b ≤ k a)) :
    (insertByDesc k x l).Pairwise (fun a b => k b ≤ k a) := by
  induction l with
  | nil => simp [insertByDesc]
  | cons y ys ih =>
    obtain ⟨hy, hys⟩ := List.pairwise_cons.mp h
    simp only [insertByDesc]
    by_cases hxy : k x ≤ k y
    · rw [if_pos hxy]
      refine List.pairwise_cons.mpr ⟨?_, ih hys⟩
      intro z hz
      rcases List.mem_cons.mp ((insertByDesc_perm k x ys).mem_iff.mp hz) with he | hz2
      · rw [he]; exact hxy
      · exact hy z hz2
    · rw [if_neg hxy]
      have hyx : k y ≤ k x := le_of_lt (lt_of_not_le hxy)
      refine List.pairwise_cons.mpr ⟨?_, h⟩
      intro z hz
      rcases List.mem_cons.mp hz with he | hz2
      · rw [he]; exact hyx
      · exact le_trans (hy z hz2) hyx

theorem sortByDesc_pairwise_aux {α : Type} (k : α → Int) :
    ∀ (l acc : List α), acc.Pairwise (fun a b => k b ≤ k a) →
      (l.foldl (fun acc x => insertByDesc k x acc) acc).Pairwise (fun a b => k b ≤ k a) := by
  intro l
  induction l with
  | nil => intro acc h; simpa using h
  | cons x xs ih =>
    intro acc h
    simp only [List.foldl_cons]
    exact ih _ (insertByDesc_pairwise k x acc h)

theorem sortByDesc_pairwise {α : Type} (k : α → Int) (l : List α) :
    (sortByDesc k l).Pairwise (fun a b => k b ≤ k a) := by
  exact sortByDesc_pairwise_aux k l [] (by simp)

/-! ## Claim C5 -/

/-- Claim C5: under unique ids on each side, the merged transaction list is
a permutation of the local transactions kept verbatim plus exactly the
remote transactions whose id is absent locally, the merged ids are free of
duplicates, and the list is sorted by descending date valuation. -/
theorem mergeFinanceData_transactions_union (getTime : String → Int)
    (hostData clientData : FinanceData) (now : String)
    (hh : (hostData.transactions.map (fun t => t.id)).Nodup)
    (hc : (clientData.transactions.map (fun t => t.id)).Nodup) :
    List.Perm (mergeFinanceData getTime hostData clientData now).transactions
      (hostData.transactions ++ clientData.transactions.filter
        (fun t => !decide (t.id ∈ hostData.transactions.map (fun s => s.id)))) ∧
    ((mergeFinanceData getTime hostData clientData now).transactions.map
      (fun t => t.id)).Nodup ∧
    (mergeFinanceData getTime hostData clientData now).transactions.Pairwise
      (fun a b => getTime b.date ≤ getTime a.date) := by
  have hvals : jsValues (addIfAbsent (fun t => t.id)
      (createMap (fun t => t.id) hostData.transactions) clientData.transactions) =
      hostData.transactions ++ clientData.transactions.filter
        (fun t => !decide (t.id ∈ hostData.transactions.map (fun s => s.id))) := by
    rw [addIfAbsent_eq _ _ _ hc]
    rw [jsValues_append, jsValues_mapPair]
    have hpred : clientData.transactions.filter
        (fun t => !jsHas (createMap (fun t => t.id) hostData.transactions) t.id) =
        clientData.transactions.filter
          (fun t => !decide (t.id ∈ hostData.transactions.map (fun s => s.id))) := by
      apply List.filter_congr
      intro t _
      rw [jsHas_createMap_mem _ _ _ hh]
    rw [hpred, createMap_eq _ _ hh, jsValues_mapPair]
  have htx : (mergeFinanceData getTime hostData clientData now).transactions =
      sortByDesc (fun t => getTime t.date)
        (jsValues (addIfAbsent (fun t => t.id)
          (createMap (fun t => t.id) hostData.transactions) clientData.transactions)) := rfl
  have hperm : List.Perm (mergeFinanceData getTime hostData clientData now).transactions
      (hostData.transactions ++ clientData.transactions.filter
        (fun t => !decide (t.id ∈ hostData.transactions.map (fun s => s.id)))) := by
    rw [htx, hvals]
    exact sortByDesc_perm _ _
  refine ⟨hperm, ?_, ?_⟩
  · have hrhs : ((hostData.transactions ++ clientData.transactions.filter
        (fun t => !decide (t.id ∈ hostData.transactions.map (fun s => s.id)))).map
          (fun t => t.id)).Nodup := by
      rw [List.map_append]
      refine List.Nodup.append hh ?_ ?_
      · exact hc.sublist (List.Sublist.map (fun t : Transaction => t.id)
          (List.filter_sublist clientData.transactions))
      · intro a ha hb
        obtain ⟨t, ht, hta⟩ := List.mem_map.mp hb
        have hmem := List.mem_filter.mp ht
        have : ¬ (t.id ∈ hostData.transactions.map (fun s => s.id)) := by
          have := hmem.2
          simpa using this
        exact this (hta ▸ ha)
    exact ((hperm.map (fun t => t.id)).nodup_iff).mpr hrhs
  · rw [htx]
    exact sortByDesc_pairwise _ _

/-- Witness for claim C5 on the overlap scenario: local `[t1, t2]`, remote
`[t2, t3]`. -/
theorem mergeFinanceData_transactions_union_witness :
    ((c5Host.transactions.map (fun t => t.id)).Nodup ∧
     (c5Client.transactions.map (fun t => t.id)).Nodup) ∧
    (List.Perm (mergeFinanceData c5GetTime c5Host c5Client "t").transactions
      (c5Host.transactions ++ c5Client.transactions.filter
        (fun t => !decide (t.id ∈ c5Host.transactions.map (fun s => s.id)))) ∧
    ((mergeFinanceData c5GetTime c5Host c5Client "t").transactions.map
      (fun t => t.id)).Nodup ∧
    (mergeFinanceData c5GetTime c5Host c5Client "t").transactions.Pairwise
      (fun a b => c5GetTime b.date ≤ c5GetTime a.date)) :=
  ⟨⟨by decide, by decide⟩,
   mergeFinanceData_transactions_union c5GetTime c5Host c5Client "t" (by decide) (by decide)⟩

/-! ## Lookup lemmas for the accounts loop -/

theorem find?_cons_true {α : Type} (pred : α → Bool) (x : α) (l : List α)
    (h : pred x = true) : (x :: l).find? pred = some x :=
  List.find?_cons_of_pos l h

theorem find?_cons_false {α : Type} (pred : α → Bool) (x : α) (l : List α)
    (h : pred x = false) : (x :: l).find? pred = l.find? pred :=
  List.find?_cons_of_neg l (by simp [h])

theorem find?_append_of_none {α : Type} (pred : α → Bool) (l₁ l₂ : List α)
    (h : l₁.find? pred = none) : (l₁ ++ l₂).find? pred = l₂.find? pred := by
  induction l₁ with
  | nil => rfl
  | cons x xs ih =>
    rcases hx : pred x with _ | _
    · rw [find?_cons_false pred x xs hx] at h
      rw [List.cons_append, find?_cons_false pred x (xs ++ l₂) hx]
      exact ih h
    · rw [find?_cons_true pred x xs hx] at h
      exact Option.noConfusion h

theorem find?_of_not_has {α : Type} (m : JsMap α) (k : String)
    (h : jsHas m k = false) : m.find? (fun p => p.1 == k) = none := by
  unfold jsHas at h
  rw [List.find?_eq_none]
  intro p hp
  exact List.any_eq_false.mp h p hp

theorem jsGet_jsSet_self {α : Type} (m : JsMap α) (k : String) (v : α) :
    jsGet (jsSet m k v) k = some v := by
  by_cases h : jsHas m k = true
  · rw [jsSet, if_pos h]
    have aux : ∀ ps : JsMap α, jsHas ps k = true →
        jsGet (ps.map (fun p => if p.1 == k then (k, v) else p)) k = some v := by
      intro ps
      induction ps with
      | nil => intro hcon; simp [jsHas] at hcon
      | cons p ps ih =>
        intro hps
        rcases hp : (p.1 == k) with _ | _
        · simp only [List.map_cons, hp, Bool.false_eq_true, if_false, jsGet]
          rw [find?_cons_false (fun q => q.1 == k) p _ hp]
          have htail : jsHas ps k = true := by
            unfold jsHas at hps ⊢
            rcases List.any_eq_true.mp hps with ⟨q, hq, hqk⟩
            rcases List.mem_cons.mp hq with rfl | hq2
            · rw [hp] at hqk; exact Bool.noConfusion hqk
            · exact List.any_eq_true.mpr ⟨q, hq2, hqk⟩
          exact ih htail
        · simp only [List.map_cons, hp, if_true, jsGet]
          rw [find?_cons_true (fun q => q.1 == k) (k, v) _ (by simp)]
          rfl
    exact aux m h
  · have h2 : jsHas m k = false := Bool.eq_false_iff.mpr h
    rw [jsSet, if_neg h, jsGet, find?_append_of_none _ _ _ (find?_of_not_has m k h2)]
    rw [find?_cons_true (fun q => q.1 == k) (k, v) [] (by simp)]
    rfl

theorem jsGet_jsSet_ne {α : Type} (m : JsMap α) (k k2 : String) (v : α)
    (h : ¬ (k = k2)) : jsGet (jsSet m k v) k2 = jsGet m k2 := by
  by_cases hh : jsHas m k = true
  · rw [jsSet, if_pos hh]
    clear hh
    induction m with
    | nil => rfl
    | cons p ps ih =>
      rcases hp : (p.1 == k) with _ | _
      · simp only [List.map_cons, hp, Bool.false_eq_true, if_false, jsGet]
        rcases hp2 : (p.1 == k2) with _ | _
        · rw [find?_cons_false (fun q => q.1 == k2) p _ hp2,
            find?_cons_false (fun q => q.1 == k2) p _ hp2]
          exact ih
        · rw [find?_cons_true (fun q => q.1 == k2) p _ hp2,
            find?_cons_true (fun q => q.1 == k2) p _ hp2]
      · simp only [List.map_cons, hp, if_true, jsGet]
        have hk2 : ((k, v).1 == k2) = false := by
          simp only [Prod.fst]
          exact beq_eq_false_iff_ne.mpr h
        have hpk : p.1 = k := by simpa using hp
        have hpk2 : (p.1 == k2) = false := by
          rw [hpk]
          exact beq_eq_false_iff_ne.mpr h
        rw [find?_cons_false (fun q => q.1 == k2) (k, v) _ hk2,
          find?_cons_false (fun q => q.1 == k2) p _ hpk2]
        exact ih
  · rw [jsSet, if_neg hh]
    induction m with
    | nil =>
      simp only [List.nil_append, jsGet]
      rw [find?_cons_false (fun q => q.1 == k2) (k, v) [] (beq_eq_false_iff_ne.mpr h)]
    | cons p ps ih =>
      have hhtail : ¬ jsHas ps k = true := by
        intro hcon
        apply hh
        unfold jsHas at hcon ⊢
        rcases List.any_eq_true.mp hcon with ⟨q, hq, hqk⟩
        exact List.any_eq_true.mpr ⟨q, by simp [hq], hqk⟩
      rcases hp2 : (p.1 == k2) with _ | _
      · simp only [List.cons_append, jsGet]
        rw [find?_cons_false (fun q => q.1 == k2) p _ hp2,
          find?_cons_false (fun q => q.1 == k2) p _ hp2]
        exact ih hhtail
      · simp only [List.cons_append, jsGet]
        rw [find?_cons_true (fun q => q.1 == k2) p _ hp2,
          find?_cons_true (fun q => q.1 == k2) p _ hp2]

theorem jsGet_keyed {m : JsMap Account} {k : String} {v : Account}
    (hm : ∀ p ∈ m, p.2.id = p.1) (h : jsGet m k = some v) : v.id = k := by
  obtain ⟨p, hp, hpv⟩ := Option.map_eq_some'.mp h
  have h1 : p.1 = k := by simpa using List.find?_some hp
  have h2 := hm p (List.mem_of_find?_eq_some hp)
  rw [hpv] at h2
  rw [h2, h1]

theorem keyed_jsSet {m : JsMap Account} {k : String} {v : Account}
    (hm : ∀ p ∈ m, p.2.id = p.1) (hv : v.id = k) :
    ∀ p ∈ jsSet m k v, p.2.id = p.1 := by
  intro p hp
  by_cases hh : jsHas m k = true
  · rw [jsSet, if_pos hh] at hp
    obtain ⟨q, hq, hqp⟩ := List.mem_map.mp hp
    rcases hqk : (q.1 == k) with _ | _
    · rw [hqk] at hqp
      simp only [Bool.false_eq_true, if_false] at hqp
      exact hqp ▸ hm q hq
    · rw [hqk] at hqp
      simp only [if_true] at hqp
      rw [← hqp]
      exact hv
  · rw [jsSet, if_neg hh] at hp
    rcases List.mem_append.mp hp with hin | hin
    · exact hm p hin
    · have : p = (k, v) := by simpa using hin
      rw [this]
      exact hv

theorem keyed_createMap (l : List Account) :
    ∀ p ∈ createMap (fun a => a.id) l, p.2.id = p.1 := by
  have aux : ∀ (ll : List Account) (m : JsMap Account), (∀ p ∈ m, p.2.id = p.1) →
      ∀ p ∈ ll.foldl (fun m x => jsSet m x.id x) m, p.2.id = p.1 := by
    intro ll
    induction ll with
    | nil => intro m hm; exact hm
    | cons x xs ih =>
      intro m hm
      exact ih _ (keyed_jsSet hm rfl)
  exact aux l [] (fun p hp => absurd hp (List.not_mem_nil p))

theorem keyed_mergeAccountsStep {m : JsMap Account} (ca : Account)
    (hm : ∀ p ∈ m, p.2.id = p.1) : ∀ p ∈ mergeAccountsStep m ca, p.2.id = p.1 := by
  rw [mergeAccountsStep]
  cases hget : jsGet m ca.id with
  | none => exact keyed_jsSet hm rfl
  | some hostAcc => exact keyed_jsSet hm rfl

theorem keyed_foldl_steps (cs : List Account) :
    ∀ (m : JsMap Account), (∀ p ∈ m, p.2.id = p.1) →
      ∀ p ∈ cs.foldl mergeAccountsStep m, p.2.id = p.1 := by
  induction cs with
  | nil => intro m hm; exact hm
  | cons cb cs ih =>
    intro m hm
    exact ih _ (keyed_mergeAccountsStep cb hm)

theorem jsGet_mergeAccountsStep_ne {m : JsMap Account} (ca : Account) (k : String)
    (hm : ∀ p ∈ m, p.2.id = p.1) (h : ¬ (ca.id = k)) :
    jsGet (mergeAccountsStep m ca) k = jsGet m k := by
  rw [mergeAccountsStep]
  cases hget : jsGet m ca.id with
  | none => exact jsGet_jsSet_ne m ca.id k ca h
  | some hostAcc =>
    have hid : hostAcc.id = ca.id := jsGet_keyed hm hget
    exact jsGet_jsSet_ne m hostAcc.id k _ (hid ▸ h)

theorem jsGet_foldl_steps_not_mem (cs : List Account) :
    ∀ (m : JsMap Account) (k : String), (∀ p ∈ m, p.2.id = p.1) →
      k ∉ cs.map (fun a => a.id) →
      jsGet (cs.foldl mergeAccountsStep m) k = jsGet m k := by
  induction cs with
  | nil => intro m k _ _; rfl
  | cons cb cs ih =>
    intro m k hm hk
    simp only [List.map_cons, List.mem_cons, not_or] at hk
    simp only [List.foldl_cons]
    rw [ih _ k (keyed_mergeAccountsStep cb hm) hk.2]
    exact jsGet_mergeAccountsStep_ne cb k hm (fun he => hk.1 he.symm)

theorem jsGet_foldl_steps_found (cs : List Account) :
    ∀ (m : JsMap Account) (aid : String) (ca hostAcc : Account),
      (∀ p ∈ m, p.2.id = p.1) → (cs.map (fun a => a.id)).Nodup →
      cs.find? (fun a => a.id == aid) = some ca → jsGet m aid = some hostAcc →
      jsGet (cs.foldl mergeAccountsStep m) aid = some (reconcileAccount hostAcc ca) := by
  induction cs with
  | nil => intro m aid ca hostAcc _ _ hfind _; exact Option.noConfusion hfind
  | cons cb cs ih =>
    intro m aid ca hostAcc hm hnd hfind hget
    rw [List.map_cons] at hnd
    obtain ⟨hhd, htl⟩ := List.nodup_cons.mp hnd
    rcases hb : (cb.id == aid) with _ | _
    · have hbne : ¬ (cb.id = aid) := by simpa using hb
      rw [find?_cons_false (fun a => a.id == aid) cb cs hb] at hfind
      simp only [List.foldl_cons]
      exact ih _ aid ca hostAcc (keyed_mergeAccountsStep cb hm) htl hfind
        ((jsGet_mergeAccountsStep_ne cb aid hm hbne).trans hget)
    · have hbid : cb.id = aid := by simpa using hb
      rw [find?_cons_true (fun a => a.id == aid) cb cs hb] at hfind
      have hca : ca = cb := (Option.some.injEq _ _ ▸ hfind).symm
      simp only [List.foldl_cons]
      have hstep : mergeAccountsStep m cb = jsSet m hostAcc.id (reconcileAccount hostAcc cb) := by
        rw [mergeAccountsStep, hbid, hget]
      rw [hstep]
      have hostid : hostAcc.id = aid := jsGet_keyed hm hget
      have hnotin : aid ∉ cs.map (fun a => a.id) := hbid ▸ hhd
      rw [jsGet_foldl_steps_not_mem cs _ aid
        (keyed_jsSet hm (show (reconcileAccount hostAcc cb).id = hostAcc.id from rfl)) hnotin]
      rw [hca, ← hostid]
      exact jsGet_jsSet_self m hostAcc.id (reconcileAccount hostAcc cb)

theorem find?_jsValues (m : JsMap Account) (aid : String)
    (hm : ∀ p ∈ m, p.2.id = p.1) :
    (jsValues m).find? (fun a => a.id == aid) = jsGet m aid := by
  induction m with
  | nil => rfl
  | cons p ps ih =>
    have hid : p.2.id = p.1 := hm p (by simp)
    rcases hpk : (p.1 == aid) with _ | _
    · have hvk : (p.2.id == aid) = false := by rw [hid]; exact hpk
      simp only [jsValues, List.map_cons, jsGet]
      rw [find?_cons_false (fun a => a.id == aid) p.2 _ hvk,
        find?_cons_false (fun q => q.1 == aid) p _ hpk]
      exact ih (fun q hq => hm q (by simp [hq]))
    · have hvk : (p.2.id == aid) = true := by rw [hid]; exact hpk
      simp only [jsValues, List.map_cons, jsGet]
      rw [find?_cons_true (fun a => a.id == aid) p.2 _ hvk,
        find?_cons_true (fun q => q.1 == aid) p _ hpk]
      rfl

theorem jsGet_mapPair_find? (l : List Account) (aid : String) :
    jsGet (l.map (fun x => (x.id, x))) aid = l.find? (fun a => a.id == aid) := by
  induction l with
  | nil => rfl
  | cons a l ih =>
    rcases ha : (a.id == aid) with _ | _
    · simp only [List.map_cons, jsGet]
      rw [find?_cons_false (fun q => q.1 == aid) (a.id, a) _ ha,
        find?_cons_false (fun q => q.id == aid) a l ha]
      exact ih
    · simp only [List.map_cons, jsGet]
      rw [find?_cons_true (fun q => q.1 == aid) (a.id, a) _ ha,
        find?_cons_true (fun q => q.id == aid) a l ha]
      rfl

theorem jsGet_createMap_find? (hostAccs : List Account) (aid : String)
    (h : (hostAccs.map (fun a => a.id)).Nodup) :
    jsGet (createMap (fun a => a.id) hostAccs) aid =
      hostAccs.find? (fun a => a.id == aid) := by
  rw [createMap_eq _ _ h]
  exact jsGet_mapPair_find? hostAccs aid

/-! ## Claim C1 (amended) -/

theorem reconcileAccount_holdings (hostAcc clientAcc : Account)
    (hhn : ((hostAcc.holdings.getD []).map (fun h => h.id)).Nodup)
    (hcn : ((clientAcc.holdings.getD []).map (fun h => h.id)).Nodup) :
    (reconcileAccount hostAcc clientAcc).holdings =
      some ((hostAcc.holdings.getD []) ++
        (clientAcc.holdings.getD []).filter
          (fun h => !decide (h.id ∈ (hostAcc.holdings.getD []).map (fun g => g.id)))) := by
  show some _ = some _
  congr 1
  rw [addIfAbsent_eq _ _ _ hcn]
  rw [jsValues_append, jsValues_mapPair]
  have hpred : (clientAcc.holdings.getD []).filter
      (fun h => !jsHas (createMap (fun h => h.id) (hostAcc.holdings.getD [])) h.id) =
      (clientAcc.holdings.getD []).filter
        (fun h => !decide (h.id ∈ (hostAcc.holdings.getD []).map (fun g => g.id))) := by
    apply List.filter_congr
    intro h _
    rw [jsHas_createMap_mem _ _ _ hhn]
  rw [hpred, createMap_eq _ _ hhn, jsValues_mapPair]

/-- Claim C1 (amended): for every pair of snapshots with unique account ids
on each side, an account id present in both sides is reconciled by unioning
its holdings by holding id, not by case-insensitive name, and nothing is
summed: a holding id present in both sides keeps the host holding unchanged,
a holding id present in only one side is carried over unmodified, and in the
scenario where both devices record the same AAPL holding id the merged
holding stays `{qty 1, value 150}` with account balance 150. -/
theorem mergeFinanceData_accounts_reconcile (getTime : String → Int)
    (hostData clientData : FinanceData) (now : String) (aid : String)
    (hostAcc clientAcc : Account)
    (hhA : (hostData.accounts.map (fun a => a.id)).Nodup)
    (hcA : (clientData.accounts.map (fun a => a.id)).Nodup)
    (hfindH : hostData.accounts.find? (fun a => a.id == aid) = some hostAcc)
    (hfindC : clientData.accounts.find? (fun a => a.id == aid) = some clientAcc)
    (hhn : ((hostAcc.holdings.getD []).map (fun h => h.id)).Nodup)
    (hcn : ((clientAcc.holdings.getD []).map (fun h => h.id)).Nodup) :
    (mergeFinanceData getTime hostData clientData now).accounts.find?
      (fun a => a.id == aid) = some (reconcileAccount hostAcc clientAcc) ∧
    (reconcileAccount hostAcc clientAcc).holdings =
      some ((hostAcc.holdings.getD []) ++
        (clientAcc.holdings.getD []).filter
          (fun h => !decide (h.id ∈ (hostAcc.holdings.getD []).map (fun g => g.id)))) := by
  constructor
  · have hacc : (mergeFinanceData getTime hostData clientData now).accounts =
        jsValues (mergeAccountsMap hostData.accounts clientData.accounts) := rfl
    rw [hacc, mergeAccountsMap]
    rw [find?_jsValues _ aid (keyed_foldl_steps clientData.accounts _ (keyed_createMap _))]
    exact jsGet_foldl_steps_found clientData.accounts _ aid clientAcc hostAcc
      (keyed_createMap _) hcA hfindC
      ((jsGet_createMap_find? hostData.accounts aid hhA).trans hfindH)
  · exact reconcileAccount_holdings hostAcc clientAcc hhn hcn

/-- Witness for the amended claim C1 on the AAPL scenario accounts. -/
theorem mergeFinanceData_accounts_reconcile_witness :
    ((c1Host.accounts.map (fun a => a.id)).Nodup ∧
     (c1Client.accounts.map (fun a => a.id)).Nodup ∧
     c1Host.accounts.find? (fun a => a.id == "a1") =
       some ⟨"a1", "Brokerage", "Equities", none, 150,
         some [⟨"h1", "AAPL", none, 1, none, 150, none⟩]⟩ ∧
     c1Client.accounts.find? (fun a => a.id == "a1") =
       some ⟨"a1", "Brokerage", "Equities", none, 300,
         some [⟨"h1", "AAPL", none, 2, none, 300, none⟩]⟩) ∧
    ((mergeFinanceData (fun _ => 0) c1Host c1Client "t").accounts.find?
      (fun a => a.id == "a1") =
      some (reconcileAccount
        ⟨"a1", "Brokerage", "Equities", none, 150,
          some [⟨"h1", "AAPL", none, 1, none, 150, none⟩]⟩
        ⟨"a1", "Brokerage", "Equities", none, 300,
          some [⟨"h1", "AAPL", none, 2, none, 300, none⟩]⟩) ∧
    (reconcileAccount
        ⟨"a1", "Brokerage", "Equities", none, 150,
          some [⟨"h1", "AAPL", none, 1, none, 150, none⟩]⟩
        ⟨"a1", "Brokerage", "Equities", none, 300,
          some [⟨"h1", "AAPL", none, 2, none, 300, none⟩]⟩).holdings =
      some ([⟨"h1", "AAPL", none, 1, none, 150, none⟩] ++
        [(⟨"h1", "AAPL", none, 2, none, 300, none⟩ : Holding)].filter
          (fun h => !decide (h.id ∈ ([⟨"h1", "AAPL", none, 1, none, 150, none⟩] :
            List Holding).map (fun g => g.id))))) :=
  ⟨⟨by decide, by decide, by decide, by decide⟩,
   mergeFinanceData_accounts_reconcile (fun _ => 0) c1Host c1Client "t" "a1"
     ⟨"a1", "Brokerage", "Equities", none, 150,
       some [⟨"h1", "AAPL", none, 1, none, 150, none⟩]⟩
     ⟨"a1", "Brokerage", "Equities", none, 300,
       some [⟨"h1", "AAPL", none, 2, none, 300, none⟩]⟩
     (by decide) (by decide) (by decide) (by decide) (by decide) (by decide)⟩

/-! ## Digit and split lemmas for the envelope wire format -/

theorem takeWhileAll {p : Char → Bool} :
    ∀ l : List Char, (∀ c ∈ l, p c = true) → l.takeWhile p = l := by
  intro l h
  induction l with
  | nil => rfl
  | cons x xs ih =>
    rw [List.takeWhile_cons, h x (by simp)]
    rw [ih (fun c hc => h c (by simp [hc]))]
    simp

theorem digitChar_isDigit {n : Nat} (h : n < 10) : (digitChar n).isDigit = true := by
  interval_cases n <;> decide

theorem digitChar_val {n : Nat} (h : n < 10) : (digitChar n).toNat - 48 = n := by
  interval_cases n <;> decide

theorem natDigitsAux_all_digits :
    ∀ (fuel n : Nat), n < fuel → ∀ c ∈ natDigitsAux fuel n, c.isDigit = true := by
  intro fuel
  induction fuel with
  | zero => intro n h; omega
  | succ fuel ih =>
    intro n hn c hc
    rw [natDigitsAux] at hc
    by_cases h10 : n < 10
    · rw [if_pos h10] at hc
      have : c = digitChar n := by simpa using hc
      rw [this]
      exact digitChar_isDigit h10
    · rw [if_neg h10] at hc
      rcases List.mem_append.mp hc with hin | hin
      · exact ih (n / 10) (by omega) c hin
      · have : c = digitChar (n % 10) := by simpa using hin
        rw [this]
        exact digitChar_isDigit (Nat.mod_lt n (by omega))

theorem natDigitsAux_ne_nil :
    ∀ (fuel n : Nat), n < fuel → natDigitsAux fuel n ≠ [] := by
  intro fuel
  cases fuel with
  | zero => intro n h; omega
  | succ fuel =>
    intro n _ hcon
    rw [natDigitsAux] at hcon
    by_cases h10 : n < 10
    · rw [if_pos h10] at hcon
      exact List.noConfusion hcon
    · rw [if_neg h10] at hcon
      rcases List.append_eq_nil.mp hcon with ⟨_, h2⟩
      exact List.noConfusion h2

theorem natDigitsAux_val :
    ∀ (fuel n : Nat), n < fuel →
      (natDigitsAux fuel n).foldl (fun a c => a * 10 + (c.toNat - 48)) 0 = n := by
  intro fuel
  induction fuel with
  | zero => intro n h; omega
  | succ fuel ih =>
    intro n hn
    rw [natDigitsAux]
    by_cases h10 : n < 10
    · rw [if_pos h10]
      simp only [List.foldl_cons, List.foldl_nil]
      rw [Nat.zero_mul, Nat.zero_add]
      exact digitChar_val h10
    · rw [if_neg h10]
      rw [List.foldl_append]
      rw [ih (n / 10) (by omega)]
      simp only [List.foldl_cons, List.foldl_nil]
      rw [digitChar_val (Nat.mod_lt n (by omega))]
      omega

theorem parseInt10_natToStr (n : Nat) : parseInt10 (natToStr n) = some n := by
  have hfuel : n < n + 1 := Nat.lt_succ_self n
  show (if ((natDigits n).takeWhile Char.isDigit).isEmpty = true then none
    else some (((natDigits n).takeWhile Char.isDigit).foldl
      (fun a c => a * 10 + (c.toNat - 48)) 0)) = some n
  rw [show natDigits n = natDigitsAux (n + 1) n from rfl]
  rw [takeWhileAll _ (natDigitsAux_all_digits (n + 1) n hfuel)]
  rw [if_neg (by
    simpa [List.isEmpty_iff] using natDigitsAux_ne_nil (n + 1) n hfuel)]
  rw [natDigitsAux_val (n + 1) n hfuel]

theorem natDigits_no_colon (n : Nat) : ':' ∉ natDigits n := by
  intro hc
  have := natDigitsAux_all_digits (n + 1) n (Nat.lt_succ_self n) ':' hc
  exact Bool.noConfusion this

theorem splitOnChar_ne_nil (sep : Char) : ∀ l : List Char, splitOnChar sep l ≠ [] := by
  intro l
  induction l with
  | nil => exact fun h => List.noConfusion h
  | cons x xs ih =>
    rw [splitOnChar]
    by_cases hx : (x == sep) = true
    · simp only [hx, if_true]
      exact fun h => List.noConfusion h
    · simp only [hx, Bool.false_eq_true, if_false]
      cases hr : splitOnChar sep xs with
      | nil => exact absurd hr ih
      | cons y ys => exact fun h => List.noConfusion h

theorem splitOnChar_append_sep (sep : Char) :
    ∀ (a b : List Char), sep ∉ a →
      splitOnChar sep (a ++ sep :: b) = a :: splitOnChar sep b := by
  intro a
  induction a with
  | nil =>
    intro b _
    rw [List.nil_append, splitOnChar]
    simp
  | cons x xs ih =>
    intro b ha
    have hx : ¬ (x = sep) := fun h => ha (h ▸ List.mem_cons_self x xs)
    have hxs : sep ∉ xs := fun h => ha (List.mem_cons_of_mem x h)
    rw [List.cons_append, splitOnChar]
    simp only [beq_eq_false_iff_ne.mpr hx, Bool.false_eq_true, if_false]
    rw [ih b hxs]

theorem joinColon_cons_cons (x : Char) (y : List Char) (ys : List (List Char)) :
    joinColon ((x :: y) :: ys) = x :: joinColon (y :: ys) := by
  cases ys <;> rfl

theorem joinColon_splitOnChar : ∀ l : List Char, joinColon (splitOnChar ':' l) = l := by
  intro l
  induction l with
  | nil => rfl
  | cons x xs ih =>
    rw [splitOnChar]
    by_cases hx : (x == ':') = true
    · have hxc : x = ':' := by simpa using hx
      simp only [hx, if_true]
      cases hr : splitOnChar ':' xs with
      | nil => exact absurd hr (splitOnChar_ne_nil ':' xs)
      | cons y ys =>
        rw [hr] at ih
        show ':' :: joinColon (y :: ys) = x :: xs
        rw [ih, hxc]
    · simp only [hx, Bool.false_eq_true, if_false]
      cases hr : splitOnChar ':' xs with
      | nil => exact absurd hr (splitOnChar_ne_nil ':' xs)
      | cons y ys =>
        rw [hr] at ih
        show joinColon ((x :: y) :: ys) = x :: xs
        rw [joinColon_cons_cons, ih]

/-! ## Claim C8 -/

theorem formatEnvelope_data (e : Envelope) :
    (formatEnvelope e).data =
      "FINT_M_V1".data ++ ':' :: (e.sessionId.data ++ ':' ::
        (natDigits e.index ++ ':' :: (natDigits e.total ++ ':' :: e.fragment.data))) := by
  simp only [formatEnvelope, natToStr, String.data_append, List.append_assoc]
  rfl

theorem strStartsWith_formatEnvelope (e : Envelope) :
    strStartsWith (formatEnvelope e) "FINT_M_V1:" = true := by
  rw [strStartsWith, formatEnvelope_data]
  rfl

theorem splitOnChar_formatEnvelope (e : Envelope) (hsid : ':' ∉ e.sessionId.data) :
    splitOnChar ':' (formatEnvelope e).data =
      "FINT_M_V1".data :: e.sessionId.data :: natDigits e.index :: natDigits e.total ::
        splitOnChar ':' e.fragment.data := by
  rw [formatEnvelope_data]
  rw [splitOnChar_append_sep ':' ("FINT_M_V1".data) _ (by decide)]
  rw [splitOnChar_append_sep ':' e.sessionId.data _ hsid]
  rw [splitOnChar_append_sep ':' (natDigits e.index) _ (natDigits_no_colon e.index)]
  rw [splitOnChar_append_sep ':' (natDigits e.total) _ (natDigits_no_colon e.total)]

/-- Claim C8: the multi-part envelope wire format is the colon-delimited
`FINT_M_V1:sessionId:index:total:fragment` string built by `formatEnvelope`,
and for every envelope whose session id contains no colon (the generated
base-36 ids never do), formatting then parsing recovers session id, index,
total and fragment exactly, even when the fragment itself contains colons,
because the parser splits on the first four delimiters only and rejoins the
remainder. -/
theorem parseEnvelope_formatEnvelope (e : Envelope) (hsid : ':' ∉ e.sessionId.data) :
    parseEnvelope (formatEnvelope e) = some e := by
  obtain ⟨sid, idx, tot, frag⟩ := e
  have hsid2 : ':' ∉ sid.data := hsid
  rw [parseEnvelope]
  rw [if_pos (strStartsWith_formatEnvelope ⟨sid, idx, tot, frag⟩)]
  simp only [splitOnChar_formatEnvelope ⟨sid, idx, tot, frag⟩ hsid2]
  have hfraglen : 0 < (splitOnChar ':' frag.data).length :=
    List.length_pos.mpr (splitOnChar_ne_nil ':' frag.data)
  rw [if_neg (by simp only [List.length_cons]; omega)]
  show (match parseInt10 (String.mk (natDigits idx)), parseInt10 (String.mk (natDigits tot)) with
    | some i, some t =>
      some (Envelope.mk (String.mk sid.data) i t
        (String.mk (joinColon (splitOnChar ':' frag.data))))
    | _, _ => none) = some ⟨sid, idx, tot, frag⟩
  rw [show String.mk (natDigits idx) = natToStr idx from rfl,
    show String.mk (natDigits tot) = natToStr tot from rfl,
    parseInt10_natToStr, parseInt10_natToStr]
  rw [joinColon_splitOnChar]

/-- Witness for claim C8 on an envelope whose fragment contains colons. -/
theorem parseEnvelope_formatEnvelope_witness :
    (':' ∉ ("s1" : String).data) ∧
    parseEnvelope (formatEnvelope ⟨"s1", 12, 20, "B:B:"⟩) = some ⟨"s1", 12, 20, "B:B:"⟩ :=
  ⟨by decide, parseEnvelope_formatEnvelope ⟨"s1", 12, 20, "B:B:"⟩ (by decide)⟩

/-! ## Arithmetic of the chunk count -/

theorem numChunks_pos {s : String} {size : Nat} (hsize : 0 < size)
    (hs : s.length ≠ 0) : 0 < numChunks s size := by
  rw [numChunks]
  have h1 : s.length + size - 1 = (s.length - 1) + size := by omega
  rw [h1, Nat.add_div_right _ hsize]
  exact Nat.succ_pos _

theorem numChunks_mul_ge {s : String} {size : Nat} (hsize : 0 < size) :
    s.length ≤ numChunks s size * size := by
  rw [numChunks]
  have hdm := Nat.div_add_mod (s.length + size - 1) size
  have hmod := Nat.mod_lt (s.length + size - 1) hsize
  have hcomm : size * ((s.length + size - 1) / size) =
      ((s.length + size - 1) / size) * size := Nat.mul_comm _ _
  omega

theorem lt_length_of_lt_numChunks {s : String} {size j : Nat} (hsize : 0 < size)
    (hj : j < numChunks s size) : j * size < s.length := by
  have hle : j + 1 ≤ numChunks s size := hj
  rw [numChunks] at hle
  have h2 : (j + 1) * size ≤ s.length + size - 1 :=
    (Nat.le_div_iff_mul_le hsize).mp hle
  have h3 : (j + 1) * size = j * size + size := by ring
  omega

/-! ## Reconstruction of the wire string from all fragments -/

theorem stringJoin_data :
    ∀ (l : List String) (acc : String),
      (l.foldl (fun a b => a ++ b) acc).data = acc.data ++ (l.map String.data).flatten := by
  intro l
  induction l with
  | nil => intro acc; simp
  | cons x xs ih =>
    intro acc
    simp only [List.foldl_cons, List.map_cons, List.flatten_cons]
    rw [ih (acc ++ x), String.data_append]
    simp [List.append_assoc]

theorem chunkFrag_data (s : String) (size i : Nat) :
    (chunkFrag s size i).data = (s.data.drop (i * size)).take size := by
  rw [chunkFrag, substringJS]
  have h : (i + 1) * size - i * size = size := by
    rw [Nat.succ_mul, Nat.add_sub_cancel_left]
  rw [h]

theorem join_chunkFrags (s : String) (size : Nat) :
    ∀ n : Nat,
      (((List.range n).map (fun i => chunkFrag s size i)).map String.data).flatten =
        s.data.take (n * size) := by
  intro n
  induction n with
  | zero => simp
  | succ n ih =>
    rw [List.range_succ, List.map_append, List.map_append, List.flatten_append, ih]
    simp only [List.map_cons, List.map_nil, List.flatten_cons, List.flatten_nil,
      List.append_nil]
    rw [chunkFrag_data, ← List.take_add]
    congr 1
    ring

theorem join_all_chunkFrags {s : String} {size : Nat} (hsize : 0 < size) :
    String.join ((List.range (numChunks s size)).map (fun i => chunkFrag s size i)) = s := by
  have hdata : (String.join ((List.range (numChunks s size)).map
      (fun i => chunkFrag s size i))).data = s.data := by
    unfold String.join
    rw [stringJoin_data]
    rw [join_chunkFrags]
    have hlen : s.data.length ≤ numChunks s size * size := numChunks_mul_ge hsize
    rw [List.take_of_length_le hlen]
    rfl
  have h2 : String.mk (String.join ((List.range (numChunks s size)).map
      (fun i => chunkFrag s size i))).data = String.mk s.data := by rw [hdata]
  exact h2

/-! ## Fragment store lemmas -/

theorem chunkFrag_ne_empty {s : String} {size j : Nat} (hsize : 0 < size)
    (hj : j < numChunks s size) : chunkFrag s size j ≠ "" := by
  intro hcon
  have hd : (chunkFrag s size j).data = [] := by rw [hcon]
  rw [chunkFrag_data] at hd
  have hlt : j * size < s.data.length := lt_length_of_lt_numChunks hsize hj
  have : ((s.data.drop (j * size)).take size).length = min size (s.data.length - j * size) := by
    simp [List.length_take, List.length_drop]
  rw [hd] at this
  simp only [List.length_nil] at this
  omega

theorem chunkLookup_not_mem {chunks : List (Nat × String)} {i : Nat}
    (h : i ∉ chunks.map Prod.fst) : chunkLookup chunks i = none := by
  rw [chunkLookup]
  rw [show chunks.find? (fun p => p.1 == i) = none from ?_]
  · rfl
  · rw [List.find?_eq_none]
    intro p hp
    simp only [beq_iff_eq]
    intro hcon
    exact h (hcon ▸ List.mem_map_of_mem Prod.fst hp)

theorem chunkFalsy_not_mem {chunks : List (Nat × String)} {i : Nat}
    (h : i ∉ chunks.map Prod.fst) : chunkFalsy chunks i = true := by
  rw [chunkFalsy, chunkLookup_not_mem h]

theorem chunkLookup_mem_some {chunks : List (Nat × String)} {i : Nat}
    (h : i ∈ chunks.map Prod.fst) : ∃ q ∈ chunks, q.1 = i ∧ chunkLookup chunks i = some q.2 := by
  induction chunks with
  | nil => simp at h
  | cons p ps ih =>
    rw [List.map_cons] at h
    rcases hp : (p.1 == i) with _ | _
    · have hpne : ¬ (p.1 = i) := by simpa using hp
      have h2 : i ∈ ps.map Prod.fst := by
        rcases List.mem_cons.mp h with he | hm
        · exact absurd he.symm hpne
        · exact hm
      obtain ⟨q, hq, hqi, hql⟩ := ih h2
      refine ⟨q, by simp [hq], hqi, ?_⟩
      rw [chunkLookup, find?_cons_false (fun p => p.1 == i) p ps hp]
      exact hql
    · refine ⟨p, by simp, by simpa using hp, ?_⟩
      rw [chunkLookup, find?_cons_true (fun p => p.1 == i) p ps hp]
      rfl

theorem chunkInsert_absent {chunks : List (Nat × String)} {i : Nat} (d : String)
    (h : i ∉ chunks.map Prod.fst) : chunkInsert chunks i d = chunks ++ [(i, d)] := by
  rw [chunkInsert, if_neg ?_]
  intro hcon
  rcases List.any_eq_true.mp hcon with ⟨p, hp, hpi⟩
  exact h ((show p.1 = i by simpa using hpi) ▸ List.mem_map_of_mem Prod.fst hp)

theorem chunkLookup_pairs {s : String} {size : Nat} {chunks : List (Nat × String)}
    {j : Nat}
    (hpairs : ∀ p ∈ chunks, ∃ j2, j2 < numChunks s size ∧ p.1 = j2 + 1 ∧
      p.2 = chunkFrag s size j2)
    (hmem : (j + 1) ∈ chunks.map Prod.fst) :
    chunkLookup chunks (j + 1) = some (chunkFrag s size j) := by
  obtain ⟨q, hq, hqi, hql⟩ := chunkLookup_mem_some hmem
  obtain ⟨j2, _, hj2i, hj2f⟩ := hpairs q hq
  have : j2 = j := by omega
  rw [hql, hj2f, this]

/-! ## Coverage counting -/

theorem coverage_le_length {keys : List Nat} {T : Nat} (_hnd : keys.Nodup)
    (hcov : ∀ j, j < T → (j + 1) ∈ keys) : T ≤ keys.length := by
  have hsub : (Finset.range T).image (fun j => j + 1) ⊆ keys.toFinset := by
    intro a ha
    obtain ⟨j, hj, rfl⟩ := Finset.mem_image.mp ha
    exact List.mem_toFinset.mpr (hcov j (Finset.mem_range.mp hj))
  have hcard : ((Finset.range T).image (fun j => j + 1)).card = T := by
    rw [Finset.card_image_of_injective _ (fun a b h => by omega), Finset.card_range]
  calc T = ((Finset.range T).image (fun j => j + 1)).card := hcard.symm
    _ ≤ keys.toFinset.card := Finset.card_le_card hsub
    _ ≤ keys.length := keys.toFinset_card_le

theorem full_keys_coverage {keys : List Nat} {T : Nat} (hnd : keys.Nodup)
    (hlen : T ≤ keys.length)
    (hsub : ∀ i ∈ keys, ∃ j, j < T ∧ i = j + 1) :
    ∀ j, j < T → (j + 1) ∈ keys := by
  intro j hj
  have hKsub : keys.toFinset ⊆ (Finset.range T).image (fun j => j + 1) := by
    intro a ha
    obtain ⟨j2, hj2, rfl⟩ := hsub a (List.mem_toFinset.mp ha)
    exact Finset.mem_image.mpr ⟨j2, Finset.mem_range.mpr hj2, rfl⟩
  have hcard : ((Finset.range T).image (fun j => j + 1)).card = T := by
    rw [Finset.card_image_of_injective _ (fun a b h => by omega), Finset.card_range]
  have hkcard : keys.toFinset.card = keys.length := List.toFinset_card_of_nodup hnd
  have heq : keys.toFinset = (Finset.range T).image (fun j => j + 1) :=
    Finset.eq_of_subset_of_card_le hKsub (by omega)
  have : (j + 1) ∈ keys.toFinset := by
    rw [heq]
    exact Finset.mem_image.mpr ⟨j, Finset.mem_range.mpr hj, rfl⟩
  exact List.mem_toFinset.mp this

theorem mem_splitChunks {s : String} {size : Nat} {sid : String} {e : Envelope} :
    e ∈ splitChunks s size sid ↔
      ∃ j, j < numChunks s size ∧
        e = ⟨sid, j + 1, numChunks s size, chunkFrag s size j⟩ := by
  rw [splitChunks, List.mem_map]
  constructor
  · rintro ⟨j, hj, rfl⟩
    exact ⟨j, List.mem_range.mp hj, rfl⟩
  · rintro ⟨j, hj, rfl⟩
    exact ⟨j, List.mem_range.mpr hj, rfl⟩

/-! ## Ingest step computations -/

theorem ingestChunk_dup (p : ScanProgress) (e : Envelope) (hs : p.sessionId = e.sessionId)
    (hfal : chunkFalsy p.chunks e.index = false) :
    ingestChunk (some p) e = (some p, none) := by
  simp [ingestChunk, hs, hfal]

theorem ingestChunk_add_complete (p : ScanProgress) (e : Envelope)
    (hs : p.sessionId = e.sessionId) (hfal : chunkFalsy p.chunks e.index = true)
    (hcomp : (chunkInsert p.chunks e.index e.fragment).length = e.total) :
    ingestChunk (some p) e =
      (none, some (assembleChunks (chunkInsert p.chunks e.index e.fragment) e.total)) := by
  simp [ingestChunk, hs, hfal, hcomp]

theorem ingestChunk_add_pending (p : ScanProgress) (e : Envelope)
    (hs : p.sessionId = e.sessionId) (hfal : chunkFalsy p.chunks e.index = true)
    (hcomp : ¬ ((chunkInsert p.chunks e.index e.fragment).length = e.total)) :
    ingestChunk (some p) e =
      (some { p with
          collected := (chunkInsert p.chunks e.index e.fragment).length,
          chunks := chunkInsert p.chunks e.index e.fragment }, none) := by
  simp [ingestChunk, hs, hfal, hcomp]

theorem ingestChunk_none (e : Envelope) :
    ingestChunk none e = ingestChunk (some ⟨e.sessionId, e.total, 0, []⟩) e := by
  simp [ingestChunk]

theorem runReassemblyFrom_cons (st : Option ScanProgress) (e : Envelope)
    (rest : List Envelope) :
    runReassemblyFrom st (e :: rest) =
      (match (ingestChunk st e).2 with
       | some out => some out
       | none => runReassemblyFrom (ingestChunk st e).1 rest) := rfl

/-! ## The assembled output at completion -/

theorem assembleChunks_full {s : String} {size : Nat}
    {chunks : List (Nat × String)} (hsize : 0 < size)
    (hpairs : ∀ p ∈ chunks, ∃ j2, j2 < numChunks s size ∧ p.1 = j2 + 1 ∧
      p.2 = chunkFrag s size j2)
    (hcov : ∀ j, j < numChunks s size → (j + 1) ∈ chunks.map Prod.fst) :
    assembleChunks chunks (numChunks s size) = s := by
  rw [assembleChunks]
  have hmap : (List.range (numChunks s size)).map
      (fun i => (chunkLookup chunks (i + 1)).getD "undefined") =
      (List.range (numChunks s size)).map (fun i => chunkFrag s size i) := by
    apply listMapPointwise
    intro i hi
    have hi2 : i < numChunks s size := List.mem_range.mp hi
    rw [chunkLookup_pairs hpairs (hcov i hi2)]
    rfl
  rw [hmap]
  exact join_all_chunkFrags hsize

/-! ## The reassembly main induction -/

theorem runFrom_iff {s : String} {size : Nat} {sid : String}
    (hsize : 0 < size) :
    ∀ (rest : List Envelope) (chunks : List (Nat × String)) (T0 c0 : Nat),
      (∀ e ∈ rest, e ∈ splitChunks s size sid) →
      (∀ p ∈ chunks, ∃ j, j < numChunks s size ∧ p.1 = j + 1 ∧
        p.2 = chunkFrag s size j) →
      (chunks.map Prod.fst).Nodup →
      chunks.length < numChunks s size →
      (runReassemblyFrom (some ⟨sid, T0, c0, chunks⟩) rest = some s ↔
        ∀ j, j < numChunks s size →
          (j + 1) ∈ chunks.map Prod.fst ∨ (j + 1) ∈ rest.map (fun e => e.index)) := by
  intro rest
  induction rest with
  | nil =>
    intro chunks T0 c0 _ _ hkeys hlen
    constructor
    · intro h
      exact Option.noConfusion h
    · intro hcov
      exfalso
      have hcov2 : ∀ j, j < numChunks s size → (j + 1) ∈ chunks.map Prod.fst := by
        intro j hj
        rcases hcov j hj with hk | hr
        · exact hk
        · simp at hr
      have h1 := coverage_le_length hkeys hcov2
      have h2 : (chunks.map Prod.fst).length = chunks.length := List.length_map _ _
      omega
  | cons e rest ih =>
    intro chunks T0 c0 hrest hpairs hkeys hlen
    have he := hrest e (List.mem_cons_self e rest)
    obtain ⟨j0, hj0, he2⟩ := mem_splitChunks.mp he
    subst he2
    have hrest2 : ∀ e2 ∈ rest, e2 ∈ splitChunks s size sid :=
      fun e2 h2 => hrest e2 (List.mem_cons_of_mem _ h2)
    by_cases hmem : (j0 + 1) ∈ chunks.map Prod.fst
    · have hfal : chunkFalsy chunks (j0 + 1) = false := by
        obtain ⟨q, hq, hqi, hql⟩ := chunkLookup_mem_some hmem
        obtain ⟨j2, hj2, hji, hjf⟩ := hpairs q hq
        rw [chunkFalsy, hql, hjf]
        exact beq_eq_false_iff_ne.mpr (chunkFrag_ne_empty hsize hj2)
      rw [runReassemblyFrom_cons,
        ingestChunk_dup ⟨sid, T0, c0, chunks⟩ ⟨sid, j0 + 1, numChunks s size,
          chunkFrag s size j0⟩ rfl hfal]
      show runReassemblyFrom (some ⟨sid, T0, c0, chunks⟩) rest = some s ↔ _
      rw [ih chunks T0 c0 hrest2 hpairs hkeys hlen]
      apply forall_congr'
      intro j
      apply imp_congr_right
      intro _
      simp only [List.map_cons]
      constructor
      · rintro (hk | hr)
        · exact Or.inl hk
        · exact Or.inr (List.mem_cons_of_mem _ hr)
      · rintro (hk | hr)
        · exact Or.inl hk
        · rcases List.mem_cons.mp hr with he3 | hr2
          · have : j = j0 := by
              have : j + 1 = j0 + 1 := he3
              omega
            exact Or.inl (this ▸ hmem)
          · exact Or.inr hr2
    · have hfal := chunkFalsy_not_mem hmem
      have hins := chunkInsert_absent (chunkFrag s size j0) hmem
      have hpairs2 : ∀ p ∈ chunks ++ [(j0 + 1, chunkFrag s size j0)],
          ∃ j, j < numChunks s size ∧ p.1 = j + 1 ∧ p.2 = chunkFrag s size j := by
        intro p hp
        rcases List.mem_append.mp hp with hin | hin
        · exact hpairs p hin
        · have : p = (j0 + 1, chunkFrag s size j0) := by simpa using hin
          exact ⟨j0, hj0, by rw [this], by rw [this]⟩
      have hkeys2 : ((chunks ++ [(j0 + 1, chunkFrag s size j0)]).map Prod.fst).Nodup := by
        rw [List.map_append]
        refine List.Nodup.append hkeys (by simp) ?_
        intro a ha hb
        have : a = j0 + 1 := by simpa using hb
        exact hmem (this ▸ ha)
      by_cases hcomp : chunks.length + 1 = numChunks s size
      · rw [runReassemblyFrom_cons,
          ingestChunk_add_complete ⟨sid, T0, c0, chunks⟩ ⟨sid, j0 + 1, numChunks s size,
            chunkFrag s size j0⟩ rfl hfal (by rw [hins]; simpa using hcomp)]
        have hcov2 : ∀ j, j < numChunks s size →
            (j + 1) ∈ (chunks ++ [(j0 + 1, chunkFrag s size j0)]).map Prod.fst := by
          apply full_keys_coverage hkeys2
          · simp only [List.map_append, List.length_append, List.length_map]
            simpa using Nat.le_of_eq hcomp.symm
          · intro i hi
            obtain ⟨p, hp, rfl⟩ := List.mem_map.mp hi
            obtain ⟨j, hj, hji, _⟩ := hpairs2 p hp
            exact ⟨j, hj, hji⟩
        have hasm : assembleChunks (chunkInsert chunks (j0 + 1) (chunkFrag s size j0))
            (numChunks s size) = s := by
          rw [hins]
          exact assembleChunks_full hsize hpairs2 hcov2
        show some (assembleChunks (chunkInsert chunks (j0 + 1) (chunkFrag s size j0))
          (numChunks s size)) = some s ↔ _
        rw [hasm]
        apply iff_of_true rfl
        intro j hj
        have := hcov2 j hj
        rw [List.map_append] at this
        rcases List.mem_append.mp this with hk | hk
        · exact Or.inl hk
        · have : j + 1 = j0 + 1 := by simpa using hk
          refine Or.inr ?_
          simp only [List.map_cons]
          exact this ▸ List.mem_cons_self _ _
      · rw [runReassemblyFrom_cons,
          ingestChunk_add_pending ⟨sid, T0, c0, chunks⟩ ⟨sid, j0 + 1, numChunks s size,
            chunkFrag s size j0⟩ rfl hfal (by rw [hins]; simpa using hcomp)]
        show runReassemblyFrom (some ⟨sid, T0,
          (chunkInsert chunks (j0 + 1) (chunkFrag s size j0)).length,
          chunkInsert chunks (j0 + 1) (chunkFrag s size j0)⟩) rest = some s ↔ _
        rw [hins]
        have hlen2 : (chunks ++ [(j0 + 1, chunkFrag s size j0)]).length <
            numChunks s size := by
          simp only [List.length_append, List.length_cons, List.length_nil]
          omega
        rw [ih (chunks ++ [(j0 + 1, chunkFrag s size j0)]) T0 _ hrest2 hpairs2 hkeys2 hlen2]
        apply forall_congr'
        intro j
        apply imp_congr_right
        intro _
        rw [List.map_append]
        simp only [List.map_cons]
        constructor
        · rintro (hk | hr)
          · rcases List.mem_append.mp hk with hk2 | hk2
            · exact Or.inl hk2
            · have : j + 1 = j0 + 1 := by simpa using hk2
              exact Or.inr (this ▸ List.mem_cons_self _ _)
          · exact Or.inr (List.mem_cons_of_mem _ hr)
        · rintro (hk | hr)
          · exact Or.inl (List.mem_append.mpr (Or.inl hk))
          · rcases List.mem_cons.mp hr with he3 | hr2
            · refine Or.inl (List.mem_append.mpr (Or.inr ?_))
              simpa using he3
            · exact Or.inr hr2

/-! ## Claim C3 -/

theorem keys_le_of_sub {keys : List Nat} {T : Nat} (hnd : keys.Nodup)
    (hsub : ∀ i ∈ keys, ∃ j, j < T ∧ i = j + 1) : keys.length ≤ T := by
  have hKsub : keys.toFinset ⊆ (Finset.range T).image (fun j => j + 1) := by
    intro a ha
    obtain ⟨j2, hj2, rfl⟩ := hsub a (List.mem_toFinset.mp ha)
    exact Finset.mem_image.mpr ⟨j2, Finset.mem_range.mpr hj2, rfl⟩
  have hcard : ((Finset.range T).image (fun j => j + 1)).card = T := by
    rw [Finset.card_image_of_injective _ (fun a b h => by omega), Finset.card_range]
  have hkcard : keys.toFinset.card = keys.length := List.toFinset_card_of_nodup hnd
  have := Finset.card_le_card hKsub
  omega

theorem distinct_eq_iff_coverage {s : String} {size : Nat} {sid : String}
    (es : List Envelope) (hsub : ∀ e ∈ es, e ∈ splitChunks s size sid) :
    distinctIndexCount es = numChunks s size ↔
      ∀ j, j < numChunks s size → (j + 1) ∈ es.map (fun e => e.index) := by
  have hforms : ∀ i ∈ (es.map (fun e => e.index)).dedup,
      ∃ j, j < numChunks s size ∧ i = j + 1 := by
    intro i hi
    obtain ⟨e, he, rfl⟩ := List.mem_map.mp (List.mem_dedup.mp hi)
    obtain ⟨j, hj, rfl⟩ := mem_splitChunks.mp (hsub e he)
    exact ⟨j, hj, rfl⟩
  constructor
  · intro hlen j hj
    have hcov := full_keys_coverage (List.nodup_dedup _)
      (Nat.le_of_eq hlen.symm) hforms j hj
    exact List.mem_dedup.mp hcov
  · intro hcov
    have hcov2 : ∀ j, j < numChunks s size →
        (j + 1) ∈ (es.map (fun e => e.index)).dedup :=
      fun j hj => List.mem_dedup.mpr (hcov j hj)
    have h1 := coverage_le_length (List.nodup_dedup _) hcov2
    have h2 := keys_le_of_sub (List.nodup_dedup _) hforms
    rw [distinctIndexCount]
    omega

theorem runFrom_none_cons (e : Envelope) (rest : List Envelope) :
    runReassemblyFrom none (e :: rest) =
      runReassemblyFrom (some ⟨e.sessionId, e.total, 0, []⟩) (e :: rest) := by
  rw [runReassemblyFrom_cons, runReassemblyFrom_cons, ingestChunk_none]

/-- Claim C3: for every wire string split into envelopes with a common
session id, feeding the reassembler any arrival sequence drawn from those
envelopes completes exactly when the number of distinct indices seen equals
the chunk total, and the completed output is the fragments joined in
ascending 1-based index order, which is the original wire string; in
particular an arrival sequence containing every envelope at least once, in
any order and with any duplication, completes with the original string. -/
theorem reassembly_order_insensitive (s : String) (size : Nat) (sid : String)
    (es : List Envelope) (hsize : 0 < size) (hs : s.length ≠ 0)
    (hsub : ∀ e ∈ es, e ∈ splitChunks s size sid) :
    (runReassembly es = some s ↔ distinctIndexCount es = numChunks s size) ∧
    ((∀ e2 ∈ splitChunks s size sid, e2 ∈ es) → runReassembly es = some s) := by
  have hT := numChunks_pos hsize hs
  have hmain : runReassembly es = some s ↔
      ∀ j, j < numChunks s size → (j + 1) ∈ es.map (fun e => e.index) := by
    cases es with
    | nil =>
      constructor
      · intro h
        exact Option.noConfusion h
      · intro hcov
        have := hcov 0 hT
        simp at this
    | cons e rest =>
      have he := hsub e (List.mem_cons_self e rest)
      obtain ⟨j0, hj0, he2⟩ := mem_splitChunks.mp he
      subst he2
      rw [runReassembly, runFrom_none_cons]
      rw [runFrom_iff hsize (⟨sid, j0 + 1, numChunks s size, chunkFrag s size j0⟩ :: rest)
        [] (numChunks s size) 0 hsub (by intro p hp; simp at hp) (by simp) (by simpa using hT)]
      apply forall_congr'
      intro j
      apply imp_congr_right
      intro _
      constructor
      · rintro (hk | hr)
        · simp at hk
        · exact hr
      · intro hr
        exact Or.inr hr
  refine ⟨hmain.trans (distinct_eq_iff_coverage es hsub).symm, ?_⟩
  intro hfull
  rw [hmain]
  intro j hj
  have hin : (⟨sid, j + 1, numChunks s size, chunkFrag s size j⟩ : Envelope) ∈ es :=
    hfull _ (mem_splitChunks.mpr ⟨j, hj, rfl⟩)
  exact List.mem_map.mpr ⟨_, hin, rfl⟩

/-- Witness for claim C3 on the `AAABBB` scenario: index 2 first, then
index 1, then a duplicate of index 1, completing with the original string. -/
theorem reassembly_order_insensitive_witness :
    ((0 < 3) ∧ ("AAABBB" : String).length ≠ 0 ∧
      (∀ e ∈ c3Envelopes, e ∈ splitChunks "AAABBB" 3 "s1")) ∧
    ((runReassembly c3Envelopes = some "AAABBB" ↔
      distinctIndexCount c3Envelopes = numChunks "AAABBB" 3) ∧
    ((∀ e2 ∈ splitChunks "AAABBB" 3 "s1", e2 ∈ c3Envelopes) →
      runReassembly c3Envelopes = some "AAABBB")) :=
  ⟨⟨by decide, by decide, by decide⟩,
   reassembly_order_insensitive "AAABBB" 3 "s1" c3Envelopes (by decide) (by decide)
     (by decide)⟩
